import Mathlib

/-!
Verification of the transcription system's core layer
(`core/transcriber.py`, `core/batch_manager.py`) against its
natural-language specification.

Modelling conventions:
  * Python floats (segment times, progress percentages) are modelled as
    exact rationals `ℚ`; Python `int(x)` / `//` / `%` on nonnegative
    values become `Int.floor` and the derived `pymod`.
  * Python strings are Lean `String`s; where character-level reasoning is
    needed (decimal rendering, path basenames, SRT output) we work on
    `List Char` (`String.data`).
  * Mutable objects are modelled either by explicit state passing
    (`BatchManagerState`, value semantics — sound wherever a single
    writer owns the record) or, where reference aliasing itself is the
    property under study, by an explicit heap (`RefState`).
-/

/-! ## Decimal rendering of natural numbers (Python `str(n)` / format specs) -/

/-- Character for a single decimal digit `d < 10`. -/
def digitToChar (d : ℕ) : Char := Char.ofNat (48 + d)

/-- Numeric value of a decimal digit character. -/
def charToDigit (c : Char) : ℕ := c.toNat - 48

/-- Fuel-driven most-significant-first decimal expansion; structural so the
kernel can evaluate it. -/
def digitsAux : ℕ → ℕ → List Char
  | 0, _ => []
  | fuel + 1, n =>
    if n < 10 then [digitToChar n]
    else digitsAux fuel (n / 10) ++ [digitToChar (n % 10)]

/-- Decimal digits of `n`, most significant first (Python `str(n)` for `n : ℕ`). -/
def natChars (n : ℕ) : List Char := digitsAux (n + 1) n

/-- Value of a digit-character string read in base 10. -/
def digitVal (cs : List Char) : ℕ := cs.foldl (fun a c => 10 * a + charToDigit c) 0

/-- Zero left-padding to width `w` (Python `f"{n:0wd}"`). -/
def padZ (w : ℕ) (cs : List Char) : List Char := List.replicate (w - cs.length) '0' ++ cs

theorem isDigit_digitToChar {d : ℕ} (h : d < 10) : (digitToChar d).isDigit = true := by
  interval_cases d <;> decide

theorem charToDigit_digitToChar {d : ℕ} (h : d < 10) : charToDigit (digitToChar d) = d := by
  interval_cases d <;> decide

theorem digitsAux_isDigit : ∀ fuel n, n < fuel → ∀ c ∈ digitsAux fuel n, c.isDigit = true := by
  intro fuel
  induction fuel with
  | zero => intro n hn; omega
  | succ f ih =>
    intro n hn c hc
    by_cases h10 : n < 10
    · simp [digitsAux, h10] at hc
      subst hc
      exact isDigit_digitToChar h10
    · simp only [digitsAux, if_neg h10, List.mem_append, List.mem_singleton] at hc
      rcases hc with hc | hc
      · have hdiv : n / 10 < f := by
          have := Nat.div_lt_self (by omega : 0 < n) (by omega : 1 < 10)
          omega
        exact ih (n / 10) hdiv c hc
      · subst hc
        exact isDigit_digitToChar (Nat.mod_lt _ (by omega))

theorem natChars_isDigit (n : ℕ) : ∀ c ∈ natChars n, c.isDigit = true :=
  digitsAux_isDigit (n + 1) n (Nat.lt_succ_self n)

theorem foldl_digitVal_append (cs ds : List Char) (a : ℕ) :
    (cs ++ ds).foldl (fun a c => 10 * a + charToDigit c) a
      = ds.foldl (fun a c => 10 * a + charToDigit c) (cs.foldl (fun a c => 10 * a + charToDigit c) a) :=
  List.foldl_append ..

theorem digitsAux_val : ∀ fuel n, n < fuel → ∀ a,
    (digitsAux fuel n).foldl (fun a c => 10 * a + charToDigit c) a
      = a * 10 ^ (digitsAux fuel n).length + n := by
  intro fuel
  induction fuel with
  | zero => intro n hn; omega
  | succ f ih =>
    intro n hn a
    by_cases h10 : n < 10
    · simp [digitsAux, h10, charToDigit_digitToChar h10]
      ring
    · have hdiv : n / 10 < f := by
        have := Nat.div_lt_self (by omega : 0 < n) (by omega : 1 < 10)
        omega
      simp only [digitsAux, if_neg h10]
      rw [foldl_digitVal_append, ih (n / 10) hdiv a]
      simp [charToDigit_digitToChar (Nat.mod_lt n (by omega : 0 < 10)), List.length_append]
      ring_nf
      omega

theorem digitVal_natChars (n : ℕ) : digitVal (natChars n) = n := by
  have := digitsAux_val (n + 1) n (Nat.lt_succ_self n) 0
  simpa [digitVal, natChars] using this

theorem natChars_ne_nil (n : ℕ) : natChars n ≠ [] := by
  unfold natChars digitsAux
  by_cases h : n < 10 <;> simp [h]

/-- Padded digit strings still evaluate to the same number. -/
theorem digitVal_padZ (w : ℕ) (cs : List Char) : digitVal (padZ w cs) = digitVal cs := by
  unfold padZ digitVal
  rw [foldl_digitVal_append]
  congr 1
  induction (w - cs.length) with
  | zero => rfl
  | succ k ih => simpa [List.replicate_succ, charToDigit] using ih

theorem padZ_isDigit (w : ℕ) (cs : List Char) (h : ∀ c ∈ cs, c.isDigit = true) :
    ∀ c ∈ padZ w cs, c.isDigit = true := by
  intro c hc
  rcases List.mem_append.1 hc with hc | hc
  · have := List.eq_of_mem_replicate hc
    subst this; decide
  · exact h c hc

/-! ## Maximal digit runs (used by the SRT re-parser and job-id injectivity) -/

/-- Split off the maximal leading run of decimal-digit characters. -/
def takeDigits : List Char → List Char × List Char
  | [] => ([], [])
  | c :: cs =>
    if c.isDigit then
      let p := takeDigits cs
      (c :: p.1, p.2)
    else ([], c :: cs)

/-- A list either empty or starting with a non-digit character. -/
def notDigitStart : List Char → Prop
  | [] => True
  | c :: _ => c.isDigit = false

instance : DecidablePred notDigitStart := by
  intro l
  cases l <;> simp [notDigitStart] <;> infer_instance

theorem takeDigits_append {ds : List Char} (hds : ∀ c ∈ ds, c.isDigit = true)
    {rest : List Char} (hrest : notDigitStart rest) :
    takeDigits (ds ++ rest) = (ds, rest) := by
  induction ds with
  | nil =>
    cases rest with
    | nil => rfl
    | cons c cs => simp [takeDigits, notDigitStart] at hrest ⊢; simp [hrest]
  | cons c cs ih =>
    have hc : c.isDigit = true := hds c (by simp)
    have ihr := ih (fun x hx => hds x (by simp [hx]))
    simp [takeDigits, hc, ihr]

/-! ## Newline splitting (for re-parsing exported SRT text) -/

/-- Split a character stream at newline characters; `n` newlines yield
`n + 1` (possibly empty) lines. -/
def splitOnNL : List Char → List (List Char)
  | [] => [[]]
  | c :: cs =>
    let r := splitOnNL cs
    if c = '\n' then [] :: r else (c :: r.headD []) :: r.tail

theorem splitOnNL_ne_nil (cs : List Char) : splitOnNL cs ≠ [] := by
  cases cs with
  | nil => simp [splitOnNL]
  | cons c cs =>
    simp only [splitOnNL]
    by_cases h : c = '\n' <;> simp [h]

theorem splitOnNL_line {l : List Char} (hl : '\n' ∉ l) (rest : List Char) :
    splitOnNL (l ++ '\n' :: rest) = l :: splitOnNL rest := by
  induction l with
  | nil => simp [splitOnNL]
  | cons c cs ih =>
    have hc : c ≠ '\n' := by intro h; exact hl (by simp [h])
    have ihr := ih (fun h => hl (by simp [h]))
    simp [splitOnNL, hc, ihr]

/-! ## Misc string helpers (`os.path.basename`, `str.lower`, `Path.suffix`) -/

/-- Characters after the last `/` (model of `os.path.basename` on POSIX paths). -/
def basenameChars (cs : List Char) : List Char :=
  cs.foldl (fun acc c => if c = '/' then [] else acc ++ [c]) []

/-- Model of `os.path.basename`. -/
def basename (p : String) : String := String.mk (basenameChars p.data)

/-- Decimal rendering of a natural number as a `String` (Python `str(n)`). -/
def natString (n : ℕ) : String := String.mk (natChars n)

/-- ASCII lower-casing of one character (file extensions and export format
names in the source are ASCII, so Python `str.lower` restricted to ASCII). -/
def lowerChar (c : Char) : Char :=
  if 'A' ≤ c ∧ c ≤ 'Z' then Char.ofNat (c.toNat + 32) else c

/-- Model of Python `str.lower` (ASCII fragment). -/
def lowerStr (s : String) : String := String.mk (s.data.map lowerChar)

/-- Index of the last `.` in a name, if any. -/
def lastDotIdx (cs : List Char) : Option ℕ :=
  (((cs.enum).filter (fun p => p.2 = '.')).map Prod.fst).getLast?

/-- Model of `pathlib.PurePath.suffix` on the final path component: the part
from the last dot on, provided that dot is neither the leading character nor
the final character of the name. -/
def suffixChars (name : List Char) : List Char :=
  match lastDotIdx name with
  | some i => if 0 < i ∧ i + 1 < name.length then name.drop i else []
  | none => []

/-- Model of `pathlib.Path(p).suffix`. -/
def pathSuffix (p : String) : String := String.mk (suffixChars (basenameChars p.data))

/-! ## Python arithmetic helpers -/

/-- Python `a % m` on nonnegative-divisor rationals: `a - m * ⌊a / m⌋`. -/
def pymod (a m : ℚ) : ℚ := a - m * ⌊a / m⌋

/-- Floor of a rational divided by a positive integer commutes with integer
division (`⌊a / n⌋ = ⌊a⌋ / n`). -/
theorem floor_div_pos_int (a : ℚ) (n : ℤ) (hn : 0 < n) : ⌊a / (n : ℚ)⌋ = ⌊a⌋ / n := by
  have hn' : (0 : ℚ) < (n : ℚ) := by exact_mod_cast hn
  have hdm := Int.ediv_add_emod ⌊a⌋ n
  have hm0 : 0 ≤ ⌊a⌋ % n := Int.emod_nonneg ⌊a⌋ (by omega)
  have hml : ⌊a⌋ % n < n := Int.emod_lt_of_pos ⌊a⌋ hn
  rw [Int.floor_eq_iff]
  constructor
  · rw [le_div_iff₀ hn']
    have h1 : (n : ℤ) * (⌊a⌋ / n) ≤ ⌊a⌋ := by omega
    calc ((⌊a⌋ / n : ℤ) : ℚ) * (n : ℚ) = ((n * (⌊a⌋ / n) : ℤ) : ℚ) := by push_cast; ring
    _ ≤ ((⌊a⌋ : ℤ) : ℚ) := by exact_mod_cast h1
    _ ≤ a := Int.floor_le a
  · rw [div_lt_iff₀ hn']
    have h2 : ⌊a⌋ + 1 ≤ (⌊a⌋ / n + 1) * n := by
      have hx : (⌊a⌋ / n + 1) * n = n * (⌊a⌋ / n) + n := by ring
      omega
    calc a < (⌊a⌋ : ℚ) + 1 := Int.lt_floor_add_one a
    _ ≤ (((⌊a⌋ / n + 1) * n : ℤ) : ℚ) := by exact_mod_cast h2
    _ = ((⌊a⌋ / n : ℤ) + 1 : ℚ) * (n : ℚ) := by push_cast; ring

/-! ## Data model (`TranscriptionSegment`, diarization turns, jobs) -/

/-- Word-level data attached to a segment (`words` entries). -/
structure WordInfo where
  word : String
  start : ℚ
  «end» : ℚ
  confidence : ℚ
deriving DecidableEq

/-- `TranscriptionSegment` from `core/transcriber.py`. -/
structure TranscriptionSegment where
  start : ℚ
  «end» : ℚ
  text : String
  speaker : String := "Speaker 1"
  confidence : ℚ := 1
  words : List WordInfo := []
deriving DecidableEq

/-- One speaker turn produced by the external diarization engine
(`diarization.itertracks(yield_label=True)` yields `(turn, _, speaker)`). -/
structure DiarTurn where
  start : ℚ
  «end» : ℚ
  speaker : String
deriving DecidableEq

/-- Caller settings stored in job metadata. -/
structure Settings where
  language : Option String := none
  diarize : Bool := true
deriving DecidableEq

/-- The `metadata` dictionary of a `BatchJob`, modelled with one field per
key the source ever writes. -/
structure JobMetadata where
  settings : Settings
  original_filename : String
  file_size : ℕ
  status_message : Option String := none
deriving DecidableEq

/-- `BatchStatus` from `core/batch_manager.py`. -/
inductive BatchStatus
  | pending
  | processing
  | completed
  | failed
  | cancelled
deriving DecidableEq

/-- `BatchJob` from `core/batch_manager.py`; timestamps are abstract ticks. -/
structure BatchJob where
  id : String
  file_path : String
  status : BatchStatus
  progress : ℚ
  result_path : Option String := none
  error : Option String := none
  metadata : JobMetadata
  created_at : ℕ
  completed_at : Option ℕ := none
deriving DecidableEq

/-- The mutable state owned by a `BatchManager`: the insertion-ordered job
table (a Python dict), the FIFO work queue and the completion queue. -/
structure BatchManagerState where
  jobs : List (String × BatchJob)
  job_queue : List String
  completed_queue : List String
deriving DecidableEq

/-! ## Transcription pipeline: file validation (`transcribe_file`, lines 134-143) -/

/-- `TranscriptionSystem.SUPPORTED_FORMATS`. -/
def SUPPORTED_FORMATS : List String :=
  [".wav", ".mp3", ".m4a", ".flac", ".ogg", ".webm", ".mp4", ".mpeg"]

/-- Outcome of `transcribe_file` as seen by a caller: the two validation
errors, a wrapped engine error, or segments. -/
inductive TranscribeResult
  | notFound (path : String)
  | unsupportedFormat (suffix : String)
  | transcriptionFailed (msg : String)
  | ok (segs : List TranscriptionSegment)
deriving DecidableEq

/-- The validation prelude and engine call of `transcribe_file`: existence
check first, then the case-insensitive extension allow-list check, and only
then the (abstract) engine invocation.  `fsExists` abstracts the file
system; `engine` abstracts `self.model.transcribe` (its raw result already
converted to segments by `_convert_whisper_result`). -/
def transcribe_file (fsExists : String → Bool) (engine : Except String (List TranscriptionSegment))
    (file_path : String) : TranscribeResult :=
  if fsExists file_path = false then .notFound file_path
  else if (SUPPORTED_FORMATS.contains (lowerStr (pathSuffix file_path))) = false then
    .unsupportedFormat (pathSuffix file_path)
  else
    match engine with
    | .error e => .transcriptionFailed ("Transcription failed: " ++ e)
    | .ok segs => .ok segs

/-! ## Diarization assignment (`_apply_diarization`, lines 224-261) -/

/-- Overlap between a segment and a diarization turn:
`max(0, min(segment.end, turn.end) - max(segment.start, turn.start))`. -/
def overlap (seg : TranscriptionSegment) (t : DiarTurn) : ℚ :=
  max 0 (min seg.«end» t.«end» - max seg.start t.start)

/-- The inner loop of `_apply_diarization`: the running
`(best_speaker, best_overlap)` pair, updated on strict improvement only. -/
def assignLoop (seg : TranscriptionSegment) : String × ℚ → List DiarTurn → String × ℚ
  | acc, [] => acc
  | acc, t :: ts =>
    if overlap seg t > acc.2 then assignLoop seg (t.speaker, overlap seg t) ts
    else assignLoop seg acc ts

/-- Speaker assigned to one segment by `_apply_diarization`. -/
def assignSpeaker (seg : TranscriptionSegment) (turns : List DiarTurn) : String :=
  (assignLoop seg ("Speaker 1", 0) turns).1

/-- `_apply_diarization` over the whole segment list (engine available and
its run successful). -/
def apply_diarization (turns : List DiarTurn) (segs : List TranscriptionSegment) :
    List TranscriptionSegment :=
  segs.map fun seg => { seg with speaker := assignSpeaker seg turns }

/-- Maximum overlap any turn achieves against `seg` (0 when no turns). -/
def maxOverlap (seg : TranscriptionSegment) (turns : List DiarTurn) : ℚ :=
  turns.foldl (fun b t => max b (overlap seg t)) 0

/-! ## Pause heuristic (`_simple_speaker_assignment`, lines 263-290) -/

/-- Speaker label `f"Speaker {n}"`. -/
def speakerName (n : ℕ) : String := "Speaker " ++ natString n

/-- Loop body of `_simple_speaker_assignment`: `prev` is the previously
processed (already relabelled) segment, `cur` the current speaker counter;
a gap above the 2.0-second pause threshold flips the counter via
`current_speaker = 3 - current_speaker`. -/
def simpleGo (prev : TranscriptionSegment) (cur : ℕ) :
    List TranscriptionSegment → List TranscriptionSegment
  | [] => []
  | s :: ss =>
    let cur' := if s.start - prev.«end» > 2 then 3 - cur else cur
    let s' := { s with speaker := speakerName cur' }
    s' :: simpleGo s' cur' ss

/-- `_simple_speaker_assignment`: first segment is `"Speaker 1"`, later
segments flip between the two speakers on pauses longer than 2.0 s. -/
def simple_speaker_assignment : List TranscriptionSegment → List TranscriptionSegment
  | [] => []
  | s0 :: rest =>
    let s0' := { s0 with speaker := speakerName 1 }
    s0' :: simpleGo s0' 1 rest

/-! ## Timestamp formatting (`_format_timestamp_srt` / `_format_timestamp_vtt`) -/

/-- Shared component extraction of both timestamp formatters:
`hours = int(seconds // 3600)`, `minutes = int((seconds % 3600) // 60)`,
`secs = int(seconds % 60)`, `millis = int((seconds % 1) * 1000)`
(for nonnegative inputs Python `int` truncation coincides with `⌊·⌋`). -/
def tsComponents (seconds : ℚ) : ℕ × ℕ × ℕ × ℕ :=
  ((⌊seconds / 3600⌋).toNat,
   (⌊pymod seconds 3600 / 60⌋).toNat,
   (⌊pymod seconds 60⌋).toNat,
   (⌊pymod seconds 1 * 1000⌋).toNat)

/-- `_format_timestamp_srt`: `HH:MM:SS,mmm` with zero-padded fields and
uncapped hours. -/
def format_timestamp_srt (seconds : ℚ) : List Char :=
  padZ 2 (natChars (tsComponents seconds).1) ++
  ':' :: padZ 2 (natChars (tsComponents seconds).2.1) ++
  ':' :: padZ 2 (natChars (tsComponents seconds).2.2.1) ++
  ',' :: padZ 3 (natChars (tsComponents seconds).2.2.2)

/-- `_format_timestamp_vtt`: identical except for the dot separator. -/
def format_timestamp_vtt (seconds : ℚ) : List Char :=
  padZ 2 (natChars (tsComponents seconds).1) ++
  ':' :: padZ 2 (natChars (tsComponents seconds).2.1) ++
  ':' :: padZ 2 (natChars (tsComponents seconds).2.2.1) ++
  '.' :: padZ 3 (natChars (tsComponents seconds).2.2.2)

/-- The separator written between the two timestamps of a cue line. -/
def arrowSep : List Char := (" --> ").data

/-- One SRT block as written by `_export_srt`:
`{i}\n{start} --> {end}\n{text}\n\n`. -/
def srtBlock (i : ℕ) (seg : TranscriptionSegment) : List Char :=
  natChars i ++ '\n' ::
    (format_timestamp_srt seg.start ++ arrowSep ++ format_timestamp_srt seg.«end») ++
    '\n' :: (seg.text.data ++ ['\n', '\n'])

/-- The 1-indexed block loop of `_export_srt`. -/
def srtGo : ℕ → List TranscriptionSegment → List Char
  | _, [] => []
  | i, s :: ss => srtBlock i s ++ srtGo (i + 1) ss

/-- Full character content written by `_export_srt` (UTF-8 file body). -/
def exportSrtChars (segs : List TranscriptionSegment) : List Char := srtGo 1 segs

/-! ## SRT re-parsing.

Modelled from the spec: the repository ships no SRT reader, so the
re-parser required by the round-trip property ("`export(..., "srt", path)`
followed by re-parsing must recover the same `(start, end, text)` triples
to millisecond precision") is modelled from the spec's format description:
1-indexed blocks `{index}\n{startTimestamp} --> {endTimestamp}\n{text}\n\n`
with timestamps `HH:MM:SS,mmm`, zero-padded, hours unbounded. -/

/-- Read a maximal nonempty digit run as a number. -/
def parseNatRun (cs : List Char) : Option (ℕ × List Char) :=
  if (takeDigits cs).1.isEmpty then none
  else some (digitVal (takeDigits cs).1, (takeDigits cs).2)

/-- Expect one literal character. -/
def expectCh (c : Char) : List Char → Option (List Char)
  | [] => none
  | x :: xs => if x = c then some xs else none

/-- Expect a literal character sequence. -/
def expectSeq : List Char → List Char → Option (List Char)
  | [], cs => some cs
  | _ :: _, [] => none
  | p :: ps, c :: cs => if c = p then expectSeq ps cs else none

/-- Parse `HH:MM:SS,mmm` (fields read as digit runs) into seconds. -/
def parseTS (cs : List Char) : Option (ℚ × List Char) :=
  match parseNatRun cs with
  | none => none
  | some (h, r1) =>
    match expectCh ':' r1 with
    | none => none
    | some r2 =>
      match parseNatRun r2 with
      | none => none
      | some (m, r3) =>
        match expectCh ':' r3 with
        | none => none
        | some r4 =>
          match parseNatRun r4 with
          | none => none
          | some (s, r5) =>
            match expectCh ',' r5 with
            | none => none
            | some r6 =>
              match parseNatRun r6 with
              | none => none
              | some (ms, r7) =>
                some (((h * 3600 + m * 60 + s : ℕ) : ℚ) + (ms : ℚ) / 1000, r7)

/-- Parse a cue timing line `start --> end`. -/
def parseTSLine (cs : List Char) : Option (ℚ × ℚ) :=
  match parseTS cs with
  | none => none
  | some (a, r1) =>
    match expectSeq arrowSep r1 with
    | none => none
    | some r2 =>
      match parseTS r2 with
      | none => none
      | some (b, r3) => if r3.isEmpty then some (a, b) else none

/-- Parse the line list of an SRT file: blocks of index line, timing line,
one text line and a blank separator line, with the trailing empty line the
final newline produces. -/
def parseBlocks : List (List Char) → Option (List (ℚ × ℚ × List Char))
  | [[]] => some []
  | idx :: tsl :: text :: sep :: rest =>
    if idx.isEmpty then none
    else if sep.isEmpty then
      match parseTSLine tsl with
      | none => none
      | some ab =>
        match parseBlocks rest with
        | none => none
        | some tl => some ((ab.1, ab.2, text) :: tl)
    else none
  | _ => none

/-- Whole-file SRT reader over the raw character content. -/
def parseSRT (cs : List Char) : Option (List (ℚ × ℚ × List Char)) :=
  parseBlocks (splitOnNL cs)

/-- Millisecond quantization: the value a `HH:MM:SS,mmm` timestamp written
for `q ≥ 0` denotes, namely `⌊1000 q⌋ / 1000`. -/
def quantizeMs (q : ℚ) : ℚ := ((⌊q * 1000⌋.toNat : ℕ) : ℚ) / 1000

/-! ## Remaining export encoders (`export_transcription` and helpers).

Numeric rendering note: exact rationals stand in for Python floats, so
decimal renderings (`%.2f`, `json.dump`'s float repr) are modelled over
exact rationals; binary-float representation artifacts are outside the
model. -/

/-- Escaped opening brace for JSON text. -/
def LBrace : String := "\x7b"

/-- Escaped closing brace for JSON text. -/
def RBrace : String := "\x7d"

/-- JSON string escaping (the fragment `json.dump` needs here). -/
def jsonEscape (s : String) : String :=
  String.mk (s.data.foldr (fun c acc =>
    if c = '"' then '\\' :: '"' :: acc
    else if c = '\\' then '\\' :: '\\' :: acc
    else if c = '\n' then '\\' :: 'n' :: acc
    else if c = '\r' then '\\' :: 'r' :: acc
    else if c = '\t' then '\\' :: 't' :: acc
    else c :: acc) [])

/-- A JSON string literal. -/
def jsonStr (s : String) : String := "\"" ++ jsonEscape s ++ "\""

/-- Decimal rendering of an integer. -/
def intString (z : ℤ) : String := (if z < 0 then "-" else "") ++ natString z.natAbs

/-- Abstract numeric rendering of a rational (Python float repr abstracted;
integers render exactly). -/
def jsonNum (q : ℚ) : String :=
  intString q.num ++ (if q.den = 1 then "" else "/" ++ natString q.den)

/-- One `words` entry rendered into JSON (`TranscriptionSegment.to_dict`). -/
def jsonWord (w : WordInfo) : String :=
  LBrace ++ "\"word\": " ++ jsonStr w.word ++ ", \"start\": " ++ jsonNum w.start ++
    ", \"end\": " ++ jsonNum w.«end» ++ ", \"confidence\": " ++ jsonNum w.confidence ++ RBrace

/-- One segment rendered into JSON (`seg.to_dict()`). -/
def jsonSegment (seg : TranscriptionSegment) : String :=
  LBrace ++ "\"start\": " ++ jsonNum seg.start ++ ", \"end\": " ++ jsonNum seg.«end» ++
    ", \"text\": " ++ jsonStr seg.text ++ ", \"speaker\": " ++ jsonStr seg.speaker ++
    ", \"confidence\": " ++ jsonNum seg.confidence ++
    ", \"words\": [" ++ String.intercalate ", " (seg.words.map jsonWord) ++ "]" ++ RBrace

/-- `list(set(seg.speaker for seg in segments))` modelled as first-occurrence
deduplication (Python set iteration order is unspecified). -/
def distinctSpeakers (segs : List TranscriptionSegment) : List String :=
  segs.foldl (fun acc s => if s.speaker ∈ acc then acc else acc ++ [s.speaker]) []

/-- File content written by `_export_json`. -/
def contentJson (segs : List TranscriptionSegment) : String :=
  LBrace ++ "\"segments\": [" ++ String.intercalate ", " (segs.map jsonSegment) ++
    "], \"metadata\": " ++ LBrace ++ "\"total_segments\": " ++ natString segs.length ++
    ", \"total_duration\": " ++
    jsonNum (match segs.getLast? with
             | some s => s.«end»
             | none => 0) ++
    ", \"speakers\": [" ++ String.intercalate ", " ((distinctSpeakers segs).map jsonStr) ++
    "]" ++ RBrace ++ RBrace

/-- Loop of `_export_text`: `current_speaker` starts as `None`; on a speaker
change (with metadata enabled) a blank line and a `[Speaker]` header are
emitted before the text line. -/
def exportTextGo (include_metadata : Bool) : Option String → List TranscriptionSegment → String
  | _, [] => ""
  | cur, seg :: rest =>
    if include_metadata = true ∧ cur ≠ some seg.speaker then
      "\n[" ++ seg.speaker ++ "]\n" ++ seg.text ++ "\n" ++
        exportTextGo include_metadata (some seg.speaker) rest
    else seg.text ++ "\n" ++ exportTextGo include_metadata cur rest

/-- File content written by `_export_text`. -/
def contentTxt (segs : List TranscriptionSegment) (include_metadata : Bool) : String :=
  exportTextGo include_metadata none segs

/-- One VTT block: like SRT but with dot-millisecond timestamps and the
text line prefixed by `<v speaker>`. -/
def vttBlock (i : ℕ) (seg : TranscriptionSegment) : List Char :=
  natChars i ++ '\n' ::
    (format_timestamp_vtt seg.start ++ arrowSep ++ format_timestamp_vtt seg.«end») ++
    '\n' :: (("<v " ++ seg.speaker ++ ">" ++ seg.text).data ++ ['\n', '\n'])

/-- The 1-indexed block loop of `_export_vtt`. -/
def vttGo : ℕ → List TranscriptionSegment → List Char
  | _, [] => []
  | i, s :: ss => vttBlock i s ++ vttGo (i + 1) ss

/-- File content written by `_export_vtt` (`WEBVTT` header then blocks). -/
def contentVtt (segs : List TranscriptionSegment) : String :=
  "WEBVTT\n\n" ++ String.mk (vttGo 1 segs)

/-- Round-half-even of a rational to an integer (decimal `%.2f` rounding on
the exact value). -/
def roundHalfEven (x : ℚ) : ℤ :=
  if x - ⌊x⌋ < 1 / 2 then ⌊x⌋
  else if x - ⌊x⌋ > 1 / 2 then ⌊x⌋ + 1
  else if ⌊x⌋ % 2 = 0 then ⌊x⌋ else ⌊x⌋ + 1

/-- Python `f"{x:.2f}"` on the exact rational value. -/
def render2f (q : ℚ) : String :=
  (if roundHalfEven (q * 100) < 0 then "-" else "") ++
    natString ((roundHalfEven (q * 100)).natAbs / 100) ++ "." ++
    String.mk (padZ 2 (natChars ((roundHalfEven (q * 100)).natAbs % 100)))

/-- `csv.QUOTE_MINIMAL` field quoting of Python's `csv.writer`. -/
def csvField (s : String) : String :=
  if s.data.any (fun c => c = ',' ∨ c = '"' ∨ c = '\n' ∨ c = '\r') then
    "\"" ++ String.mk (s.data.foldr (fun c acc =>
      if c = '"' then '"' :: '"' :: acc else c :: acc) []) ++ "\""
  else s

/-- One CSV row (default dialect: comma separator, CRLF line terminator). -/
def csvRow (fields : List String) : String :=
  String.intercalate "," (fields.map csvField) ++ "\r\n"

/-- File content written by `_export_csv`. -/
def contentCsv (segs : List TranscriptionSegment) : String :=
  csvRow ["Start", "End", "Speaker", "Text", "Confidence"] ++
    String.join (segs.map fun seg =>
      csvRow [render2f seg.start, render2f seg.«end», seg.speaker, seg.text,
              render2f seg.confidence])

/-- The export format allow-list of `export_transcription`'s dispatch. -/
def EXPORT_FORMATS : List String := ["json", "txt", "srt", "vtt", "csv"]

/-- Pointwise file-system update (writing one file, overwriting). -/
def fsUpdate (fs : String → Option String) (p c : String) : String → Option String :=
  fun q => if q = p then some c else fs q

/-- `export_transcription`: lower-cases the format, dispatches to the five
encoders, raises `ValueError` otherwise.  The file system is modelled as a
map from paths to file contents; directory creation has no effect on it. -/
def export_transcription (segs : List TranscriptionSegment) (format : String)
    (output_path : String) (include_metadata : Bool) (fs : String → Option String) :
    Except String String × (String → Option String) :=
  let fmt := lowerStr format
  if fmt = "json" then (.ok output_path, fsUpdate fs output_path (contentJson segs))
  else if fmt = "txt" then (.ok output_path, fsUpdate fs output_path (contentTxt segs include_metadata))
  else if fmt = "srt" then (.ok output_path, fsUpdate fs output_path (String.mk (exportSrtChars segs)))
  else if fmt = "vtt" then (.ok output_path, fsUpdate fs output_path (contentVtt segs))
  else if fmt = "csv" then (.ok output_path, fsUpdate fs output_path (contentCsv segs))
  else (.error ("Unsupported export format: " ++ fmt), fs)

/-! ## Batch scheduler (`core/batch_manager.py`) -/

/-- Python dict key lookup (`d.get(k)`) over an insertion-ordered
association list. -/
def tblGet {β : Type} : List (String × β) → String → Option β
  | [], _ => none
  | kv :: l, k => if k = kv.1 then some kv.2 else tblGet l k

/-- Python dict assignment `self.jobs[job_id] = job`: overwrite in place if
the key exists, append otherwise (insertion order preserved). -/
def dictInsert (jobs : List (String × BatchJob)) (k : String) (v : BatchJob) :
    List (String × BatchJob) :=
  if (tblGet jobs k).isSome then jobs.map (fun kv => if kv.1 = k then (kv.1, v) else kv)
  else jobs ++ [(k, v)]

/-- Job-id derivation `f"job_{len(self.jobs)}_{os.path.basename(file_path)}"`. -/
def mkJobId (n : ℕ) (file_path : String) : String :=
  "job_" ++ natString n ++ "_" ++ basename file_path

/-- The `BatchJob` record `add_jobs` constructs for one path. -/
def mkBatchJob (jid file_path : String) (settings : Settings) (sz : ℕ) (now : ℕ) : BatchJob :=
  { id := jid, file_path := file_path, status := .pending, progress := 0,
    metadata := { settings := settings, original_filename := basename file_path,
                  file_size := sz },
    created_at := now }

/-- Result of `add_jobs`: either the id list, or a propagated exception
together with the state the partially-run loop left behind. -/
inductive AddJobsResult
  | ok (st : BatchManagerState) (ids : List String)
  | raised (st : BatchManagerState) (msg : String)
deriving DecidableEq

/-- `BatchManager.add_jobs`; `getsize` abstracts `os.path.getsize`
(which may raise, e.g. `FileNotFoundError`). -/
def add_jobs (getsize : String → Except String ℕ) (settings : Settings) (now : ℕ) :
    BatchManagerState → List String → AddJobsResult
  | st, [] => .ok st []
  | st, p :: ps =>
    match getsize p with
    | .error e => .raised st e
    | .ok sz =>
      let jid := mkJobId st.jobs.length p
      let st' : BatchManagerState :=
        { st with jobs := dictInsert st.jobs jid (mkBatchJob jid p settings sz now),
                  job_queue := st.job_queue ++ [jid] }
      match add_jobs getsize settings now st' ps with
      | .ok st'' ids => .ok st'' (jid :: ids)
      | .raised st'' e => .raised st'' e

/-- Closed form of the ids `add_jobs` generates from table size `base`. -/
def newIdsFor (base : ℕ) : List String → List String
  | [] => []
  | p :: ps => mkJobId base p :: newIdsFor (base + 1) ps

/-- Field update of the job object stored under `jid` (all other entries
untouched). -/
def updateJob (jobs : List (String × BatchJob)) (jid : String) (f : BatchJob → BatchJob) :
    List (String × BatchJob) :=
  jobs.map fun kv => if kv.1 = jid then (kv.1, f kv.2) else kv

/-- The `progress_callback` closure of `_process_job` applied to a sequence
of `(pct, msg)` emissions: each sets `job.progress` and
`job.metadata['status_message']` under the lock. -/
def applyProgressUpdates (jobs : List (String × BatchJob)) (jid : String)
    (ups : List (ℚ × String)) : List (String × BatchJob) :=
  ups.foldl (fun js u => updateJob js jid (fun j =>
    { j with progress := u.1, metadata := { j.metadata with status_message := some u.2 } })) jobs

/-- Behaviour of `trans_system.transcribe_file` within `_process_job`: the
progress emissions it makes, then either segments or a raised exception. -/
inductive PipelineOutcome
  | ok (updates : List (ℚ × String)) (segs : List TranscriptionSegment)
  | raised (updates : List (ℚ × String)) (msg : String)

/-- `BatchManager._process_job`: set `Processing`/`progress=10`, run the
pipeline (its callback mutating the job), then on success export JSON and
mark `Completed`, on any raise mark `Failed` with the message; in the
`finally` block always push the job id onto `completed_queue`. -/
def process_job (st : BatchManagerState) (jid : String) (outcome : PipelineOutcome)
    (exportOutcome : Except String Unit) (timestampStr : String) (now : ℕ) :
    BatchManagerState :=
  let jobs1 := updateJob st.jobs jid fun j => { j with status := .processing, progress := 10 }
  match outcome with
  | .raised ups msg =>
    let jobs2 := applyProgressUpdates jobs1 jid ups
    { st with jobs := updateJob jobs2 jid fun j => { j with status := .failed, error := some msg },
              completed_queue := st.completed_queue ++ [jid] }
  | .ok ups _segs =>
    let jobs2 := applyProgressUpdates jobs1 jid ups
    let output_file := "./outputs/batch_results/" ++ jid ++ "_" ++ timestampStr ++ ".json"
    match exportOutcome with
    | .error e =>
      { st with jobs := updateJob jobs2 jid fun j => { j with status := .failed, error := some e },
                completed_queue := st.completed_queue ++ [jid] }
    | .ok _ =>
      { st with
          jobs := updateJob jobs2 jid fun j =>
            { j with status := .completed, progress := 100, result_path := some output_file,
                     completed_at := some now },
          completed_queue := st.completed_queue ++ [jid] }

/-- Progress values written to `job.progress` over the course of
`_process_job` (10 on dequeue, the callback milestones, 100 on success). -/
def processJobProgressTrace : PipelineOutcome → List ℚ
  | .ok ups _ => 10 :: ups.map Prod.fst ++ [100]
  | .raised ups _ => 10 :: ups.map Prod.fst

/-- Milestones `transcribe_file` emits through the progress callback, read
off lines 66-183 of `core/transcriber.py`: model loading (10, 20) only when
the model is not yet loaded, then 25, 30, 70, then 75 only when diarizing,
then 95. -/
def transcribeProgressUpdates (modelLoaded diarize : Bool) : List (ℚ × String) :=
  (if modelLoaded then []
   else [((10 : ℚ), "Loading Whisper model..."), ((20 : ℚ), "Model loaded successfully")]) ++
  [((25 : ℚ), "Processing audio file..."), ((30 : ℚ), "Transcribing audio..."),
   ((70 : ℚ), "Processing segments...")] ++
  (if diarize then [((75 : ℚ), "Identifying speakers...")] else []) ++
  [((95 : ℚ), "Finalizing transcription...")]

/-- `get_job_status` (the dict lookup `self.jobs.get(job_id)`). -/
def get_job_status (st : BatchManagerState) (jid : String) : Option BatchJob :=
  tblGet st.jobs jid

/-- Well-formedness invariant of the job table: keys are distinct and every
key was derived by `mkJobId` from a table size smaller than the current
one.  Holds for the empty table and is preserved by `add_jobs`. -/
def JobsWellFormed (jobs : List (String × BatchJob)) : Prop :=
  (jobs.map Prod.fst).Nodup ∧ ∀ kv ∈ jobs, ∃ n p, kv.1 = mkJobId n p ∧ n < jobs.length

/-! ## Reference-semantics model for `get_all_jobs` (claim C2).

Python objects live on a heap; `self.jobs` maps ids to references, and
`list(self.jobs.values())` copies the list of references, not the records.
`RefState` makes that explicit: `heap` holds the `BatchJob` records,
`table` the dict from id to heap address. -/

structure RefState where
  heap : List BatchJob
  table : List (String × ℕ)
deriving DecidableEq

/-- Dereference a job reference. -/
def readJob (s : RefState) (a : ℕ) : Option BatchJob := s.heap[a]?

/-- `get_all_jobs`: `list(self.jobs.values())` — a fresh list holding the
same references. -/
def get_all_jobs (s : RefState) : List ℕ := s.table.map Prod.snd

/-- In-place mutation of the record at address `a`. -/
def heapWrite (h : List BatchJob) (a : ℕ) (f : BatchJob → BatchJob) : List BatchJob :=
  match h[a]? with
  | some j => h.set a (f j)
  | none => h

/-- A worker's `progress_callback` body (`job.progress = pct; ...`) acting
through the table reference for `jid`. -/
def workerSetProgress (s : RefState) (jid : String) (pct : ℚ) (msg : String) : RefState :=
  match tblGet s.table jid with
  | some a =>
    { s with heap := heapWrite s.heap a fun j =>
        { j with progress := pct, metadata := { j.metadata with status_message := some msg } } }
  | none => s

/-! ## Claim C3: diarization assignment picks the first maximal-overlap turn -/

theorem assignLoop_snd (seg : TranscriptionSegment) :
    ∀ (ts : List DiarTurn) (bs : String) (bo : ℚ),
      (assignLoop seg (bs, bo) ts).2 = ts.foldl (fun b t => max b (overlap seg t)) bo := by
  intro ts
  induction ts with
  | nil => intro bs bo; rfl
  | cons t ts ih =>
    intro bs bo
    by_cases h : overlap seg t > bo
    · simp only [assignLoop, if_pos h, List.foldl_cons, ih]
      rw [max_eq_right (le_of_lt h)]
    · simp only [assignLoop, if_neg h, List.foldl_cons, ih]
      rw [max_eq_left (le_of_not_lt h)]

theorem assignLoop_stable (seg : TranscriptionSegment) :
    ∀ (ts : List DiarTurn) (bs : String) (bo : ℚ),
      (∀ t ∈ ts, overlap seg t ≤ bo) → assignLoop seg (bs, bo) ts = (bs, bo) := by
  intro ts
  induction ts with
  | nil => intro bs bo _; rfl
  | cons t ts ih =>
    intro bs bo h
    have ht : ¬ overlap seg t > bo := not_lt.2 (h t (by simp))
    simp only [assignLoop, if_neg ht]
    exact ih bs bo (fun u hu => h u (by simp [hu]))

theorem foldl_max_init_le (seg : TranscriptionSegment) :
    ∀ (ts : List DiarTurn) (b : ℚ), b ≤ ts.foldl (fun b t => max b (overlap seg t)) b := by
  intro ts
  induction ts with
  | nil => intro b; exact le_refl b
  | cons t ts ih =>
    intro b
    calc b ≤ max b (overlap seg t) := le_max_left _ _
    _ ≤ ts.foldl (fun b t => max b (overlap seg t)) (max b (overlap seg t)) := ih _

theorem foldl_max_mem_le (seg : TranscriptionSegment) :
    ∀ (ts : List DiarTurn) (b : ℚ) (t : DiarTurn), t ∈ ts →
      overlap seg t ≤ ts.foldl (fun b t => max b (overlap seg t)) b := by
  intro ts
  induction ts with
  | nil => intro b t ht; cases ht
  | cons u ts ih =>
    intro b t ht
    rcases List.mem_cons.1 ht with h | h
    · subst h
      calc overlap seg t ≤ max b (overlap seg t) := le_max_right _ _
      _ ≤ ts.foldl (fun b t => max b (overlap seg t)) (max b (overlap seg t)) :=
        foldl_max_init_le seg ts _
    · exact ih _ t h

theorem foldl_max_attained (seg : TranscriptionSegment) :
    ∀ (ts : List DiarTurn) (b : ℚ),
      ts.foldl (fun b t => max b (overlap seg t)) b = b ∨
        ∃ t ∈ ts, ts.foldl (fun b t => max b (overlap seg t)) b = overlap seg t := by
  intro ts
  induction ts with
  | nil => intro b; exact Or.inl rfl
  | cons t ts ih =>
    intro b
    rcases ih (max b (overlap seg t)) with h | ⟨u, hu, hval⟩
    · simp only [List.foldl_cons, h]
      rcases max_cases b (overlap seg t) with ⟨he, _⟩ | ⟨he, _⟩
      · exact Or.inl he
      · exact Or.inr ⟨t, by simp, he⟩
    · exact Or.inr ⟨u, by simp [hu], by simpa using hval⟩

theorem assignLoop_first_max (seg : TranscriptionSegment) :
    ∀ (ts : List DiarTurn) (bs : String) (bo : ℚ), (∃ t ∈ ts, bo < overlap seg t) →
      ∃ tw, ts.find? (fun t => decide (overlap seg t = ts.foldl (fun b t => max b (overlap seg t)) bo)) = some tw ∧
        overlap seg tw = ts.foldl (fun b t => max b (overlap seg t)) bo ∧
        (assignLoop seg (bs, bo) ts).1 = tw.speaker := by
  intro ts
  induction ts with
  | nil => intro bs bo h; simp at h
  | cons t ts ih =>
    intro bs bo hex
    set M := (t :: ts).foldl (fun b t => max b (overlap seg t)) bo with hM
    have hMle : ∀ u ∈ t :: ts, overlap seg u ≤ M := fun u hu => foldl_max_mem_le seg _ bo u hu
    have hboM : bo < M := by
      rcases hex with ⟨u, hu, hlt⟩
      exact lt_of_lt_of_le hlt (hMle u hu)
    by_cases hteq : overlap seg t = M
    · -- head attains the maximum: the loop switches to it and never improves
      have hfind : (t :: ts).find?
          (fun u => decide (overlap seg u = (t :: ts).foldl (fun b t => max b (overlap seg t)) bo)) = some t :=
        List.find?_cons_of_pos _ (by simp [← hM, hteq])
      refine ⟨t, hfind, hteq, ?_⟩
      have hupd : overlap seg t > bo := hteq ▸ hboM
      simp only [assignLoop, if_pos hupd]
      have hrest : ∀ u ∈ ts, overlap seg u ≤ overlap seg t := by
        intro u hu
        exact hteq ▸ hMle u (by simp [hu])
      rw [assignLoop_stable seg ts t.speaker (overlap seg t) hrest]
    · -- head is not maximal: recurse, the list maximum lives in the tail
      have hlt : overlap seg t < M :=
        lt_of_le_of_ne (hMle t (by simp)) hteq
      have hM' : M = ts.foldl (fun b t => max b (overlap seg t)) (max bo (overlap seg t)) := by
        simp [hM]
      have hb' : ∀ b', b' = bo ∨ b' = overlap seg t → b' ≤ max bo (overlap seg t) → True := fun _ _ _ => trivial
      -- the maximum of the whole list is attained in the tail
      have hattain : ∃ u ∈ ts, overlap seg u = M := by
        rcases foldl_max_attained seg ts (max bo (overlap seg t)) with h | ⟨u, hu, hval⟩
        · exfalso
          rw [hM', h] at hboM hlt
          rcases max_cases bo (overlap seg t) with ⟨he, _⟩ | ⟨he, _⟩
          · rw [he] at hboM
            exact lt_irrefl _ hboM
          · rw [he] at hlt
            exact lt_irrefl _ hlt
        · exact ⟨u, hu, by rw [hM']; exact hval.symm⟩
      rcases hattain with ⟨u, hu, huM⟩
      by_cases hupd : overlap seg t > bo
      · have hex' : ∃ v ∈ ts, overlap seg t < overlap seg v := ⟨u, hu, huM ▸ hlt⟩
        rcases ih t.speaker (overlap seg t) hex' with ⟨tw, hfindw, hvalw, hloopw⟩
        have hMtail : ts.foldl (fun b t => max b (overlap seg t)) (overlap seg t) = M := by
          rw [hM']
          rw [max_eq_right (le_of_lt hupd)]
        refine ⟨tw, ?_, by rw [← hMtail]; exact hvalw, ?_⟩
        · rw [List.find?_cons_of_neg _ (by simp [← hM, hteq])]
          have : (fun v => decide (overlap seg v = (t :: ts).foldl (fun b t => max b (overlap seg t)) bo))
              = fun v => decide (overlap seg v = ts.foldl (fun b t => max b (overlap seg t)) (overlap seg t)) := by
            funext v
            rw [← hM, hMtail]
          rw [this]
          exact hfindw
        · simp only [assignLoop, if_pos hupd]
          exact hloopw
      · have hex' : ∃ v ∈ ts, bo < overlap seg v := ⟨u, hu, huM ▸ hboM⟩
        rcases ih bs bo hex' with ⟨tw, hfindw, hvalw, hloopw⟩
        have hMtail : ts.foldl (fun b t => max b (overlap seg t)) bo = M := by
          rw [hM']
          rw [max_eq_left (le_of_not_lt hupd)]
        refine ⟨tw, ?_, by rw [← hMtail]; exact hvalw, ?_⟩
        · rw [List.find?_cons_of_neg _ (by simp [← hM, hteq])]
          have : (fun v => decide (overlap seg v = (t :: ts).foldl (fun b t => max b (overlap seg t)) bo))
              = fun v => decide (overlap seg v = ts.foldl (fun b t => max b (overlap seg t)) bo) := by
            funext v
            rw [← hM, hMtail]
          rw [this]
          exact hfindw
        · simp only [assignLoop, if_neg hupd]
          exact hloopw

/-- C3. Diarization assignment: for every segment and finite ordered turn
list, the assigned speaker is the label of the first turn (in iteration
order) achieving the maximal overlap
`max(0, min(segment.end, turn.end) - max(segment.start, turn.start))`,
provided that maximal overlap is strictly positive; a segment whose overlap
with every turn is zero keeps the default `"Speaker 1"`.  In particular,
for segment `[0,10]` with turns `[0,4,"A"]` and `[4,10,"B"]`, the assigned
speaker is `"B"`. -/
theorem diarization_assigns_first_max_overlap (seg : TranscriptionSegment)
    (turns : List DiarTurn) :
    (0 < maxOverlap seg turns →
      ∃ tw, turns.find? (fun t => decide (overlap seg t = maxOverlap seg turns)) = some tw ∧
        overlap seg tw = maxOverlap seg turns ∧ assignSpeaker seg turns = tw.speaker) ∧
    (maxOverlap seg turns = 0 → assignSpeaker seg turns = "Speaker 1") ∧
    assignSpeaker { start := 0, «end» := 10, text := "" }
      [{ start := 0, «end» := 4, speaker := "A" }, { start := 4, «end» := 10, speaker := "B" }]
      = "B" := by
  refine ⟨?_, ?_, ?_⟩
  · intro hpos
    have hattain : ∃ t ∈ turns, overlap seg t = maxOverlap seg turns := by
      rcases foldl_max_attained seg turns 0 with h | h
      · rw [maxOverlap] at hpos
        rw [h] at hpos
        exact absurd hpos (lt_irrefl 0)
      · rcases h with ⟨t, ht, hval⟩
        exact ⟨t, ht, hval.symm⟩
    rcases hattain with ⟨t, ht, hval⟩
    have hex : ∃ t ∈ turns, (0 : ℚ) < overlap seg t := ⟨t, ht, hval ▸ hpos⟩
    rcases assignLoop_first_max seg turns "Speaker 1" 0 hex with ⟨tw, hfind, hvalw, hloop⟩
    exact ⟨tw, hfind, hvalw, hloop⟩
  · intro hzero
    have hle : ∀ t ∈ turns, overlap seg t ≤ 0 := by
      intro t ht
      have := foldl_max_mem_le seg turns 0 t ht
      rw [← maxOverlap, hzero] at this
      exact this
    unfold assignSpeaker
    rw [assignLoop_stable seg turns "Speaker 1" 0 hle]
  · norm_num [assignSpeaker, assignLoop, overlap, min_def, max_def]

/-- C3 witness: a segment with no turns has maximal overlap `0` and keeps
the default label. -/
theorem diarization_assigns_first_max_overlap_witness :
    assignSpeaker { start := 0, «end» := 10, text := "" } [] = "Speaker 1" :=
  (diarization_assigns_first_max_overlap { start := 0, «end» := 10, text := "" } []).2.1 rfl

/-! ## Claim C4: pause-heuristic speaker alternation -/

/-- Two-speaker label flip (`current_speaker = 3 - current_speaker` read at
the label level). -/
def flipSpeaker (s : String) : String :=
  if s = "Speaker 1" then "Speaker 2" else "Speaker 1"

/-- Relation between consecutive output segments of the pause heuristic:
the later segment's label flips exactly when the inter-segment gap exceeds
2.0 seconds. -/
def pauseRel (a b : TranscriptionSegment) : Prop :=
  b.speaker = if b.start - a.«end» > 2 then flipSpeaker a.speaker else a.speaker

theorem speakerName_one : speakerName 1 = "Speaker 1" := by decide

theorem speakerName_two : speakerName 2 = "Speaker 2" := by decide

theorem simpleGo_spec :
    ∀ (ss : List TranscriptionSegment) (prev : TranscriptionSegment) (cur : ℕ),
      (cur = 1 ∨ cur = 2) → prev.speaker = speakerName cur →
      List.Chain' pauseRel (prev :: simpleGo prev cur ss) ∧
        ∀ s ∈ simpleGo prev cur ss, s.speaker = "Speaker 1" ∨ s.speaker = "Speaker 2" := by
  intro ss
  induction ss with
  | nil => intro prev cur _ _; exact ⟨List.chain'_singleton prev, by simp [simpleGo]⟩
  | cons s ss ih =>
    intro prev cur hc hp
    have hc' : (if s.start - prev.«end» > 2 then 3 - cur else cur) = 1 ∨
        (if s.start - prev.«end» > 2 then 3 - cur else cur) = 2 := by
      rcases hc with h | h <;> subst h <;> by_cases hg : s.start - prev.«end» > 2 <;> simp [hg]
    have hrel : pauseRel prev { s with speaker := speakerName (if s.start - prev.«end» > 2 then 3 - cur else cur) } := by
      unfold pauseRel
      by_cases hg : s.start - prev.«end» > 2
      · simp only [hg, if_pos, hp]
        rcases hc with h | h <;> subst h
        · simp [flipSpeaker, speakerName_one, speakerName_two, hg]
        · rw [speakerName_two]
          simp [flipSpeaker, speakerName_one, hg]
      · simp [hg, hp]
    have ihx := ih { s with speaker := speakerName (if s.start - prev.«end» > 2 then 3 - cur else cur) }
      (if s.start - prev.«end» > 2 then 3 - cur else cur) hc' rfl
    constructor
    · simp only [simpleGo]
      exact List.Chain'.cons hrel ihx.1
    · intro x hx
      simp only [simpleGo, List.mem_cons] at hx
      rcases hx with hx | hx
      · subst hx
        rcases hc' with h | h <;> rw [h]
        · exact Or.inl speakerName_one
        · exact Or.inr speakerName_two
      · exact ihx.2 x hx

/-- The pause heuristic relabels only the `speaker` field. -/
theorem simpleGo_core :
    ∀ (ss : List TranscriptionSegment) (prev : TranscriptionSegment) (cur : ℕ),
      (simpleGo prev cur ss).map (fun s => (s.start, s.«end», s.text))
        = ss.map (fun s => (s.start, s.«end», s.text)) := by
  intro ss
  induction ss with
  | nil => intro prev cur; rfl
  | cons s ss ih =>
    intro prev cur
    simp only [simpleGo, List.map_cons, ih]

/-- Example segment list of the spec's pause-heuristic test vector
(starts `[0,3,10]`, ends `[2,5,12]`). -/
def pauseExampleSegs : List TranscriptionSegment :=
  [{ start := 0, «end» := 2, text := "a" }, { start := 3, «end» := 5, text := "b" },
   { start := 10, «end» := 12, text := "c" }]

/-- C4. Pause heuristic: for every non-empty segment sequence the first
output segment is labelled `"Speaker 1"`; each subsequent segment's label
flips between the two speakers exactly when
`segment[i].start - segment[i-1].end > 2.0`; only the labels
`"Speaker 1"`/`"Speaker 2"` ever occur; timing and text are untouched, so
the heuristic is a deterministic function of the segment sequence.  On
starts `[0,3,10]` / ends `[2,5,12]` it yields
`["Speaker 1", "Speaker 1", "Speaker 2"]`. -/
theorem pause_heuristic_spec (ss : List TranscriptionSegment) :
    (simple_speaker_assignment ss).map (fun s => (s.start, s.«end», s.text))
        = ss.map (fun s => (s.start, s.«end», s.text)) ∧
    (simple_speaker_assignment ss).head? = ss.head?.map (fun s => { s with speaker := "Speaker 1" }) ∧
    List.Chain' pauseRel (simple_speaker_assignment ss) ∧
    ((simple_speaker_assignment ss).map (fun s => s.speaker)).all
        (fun x => x == "Speaker 1" || x == "Speaker 2") = true ∧
    (simple_speaker_assignment pauseExampleSegs).map (fun s => s.speaker)
        = ["Speaker 1", "Speaker 1", "Speaker 2"] := by
  refine ⟨?_, ?_, ?_, ?_, ?_⟩
  · cases ss with
    | nil => rfl
    | cons s rest =>
      simp only [simple_speaker_assignment, List.map_cons, simpleGo_core]
  · cases ss with
    | nil => rfl
    | cons s rest =>
      simp [simple_speaker_assignment, speakerName_one]
  · cases ss with
    | nil => exact List.chain'_nil
    | cons s rest =>
      have := simpleGo_spec rest { s with speaker := speakerName 1 } 1 (Or.inl rfl) rfl
      simpa [simple_speaker_assignment] using this.1
  · cases ss with
    | nil => rfl
    | cons s rest =>
      have hmem := (simpleGo_spec rest { s with speaker := speakerName 1 } 1 (Or.inl rfl) rfl).2
      simp only [simple_speaker_assignment, List.map_cons, List.all_cons, Bool.and_eq_true]
      constructor
      · rw [speakerName_one]
        decide
      · rw [List.all_eq_true]
        intro x hx
        rcases List.mem_map.1 hx with ⟨y, hy, hxy⟩
        rcases hmem y hy with h | h <;> subst hxy <;> simp [h]
  · norm_num [simple_speaker_assignment, simpleGo, pauseExampleSegs, speakerName_one, speakerName_two]

/-! ## Claim C5: validation order and failure conditions of `transcribe_file` -/

/-- C5. `transcribe_file` fails with `NotFound` exactly when the file does
not exist; otherwise it fails with `UnsupportedFormat` exactly when the
file's extension, compared case-insensitively, is outside the allow-list;
the existence check precedes the extension check, and in both failure
cases the engine is never consulted (the result does not depend on it). -/
theorem transcribe_validation_spec (fsExists : String → Bool)
    (engine : Except String (List TranscriptionSegment)) (file_path : String) :
    (fsExists file_path = false → transcribe_file fsExists engine file_path = .notFound file_path) ∧
    (transcribe_file fsExists engine file_path = .notFound file_path → fsExists file_path = false) ∧
    (fsExists file_path = true →
      (lowerStr (pathSuffix file_path) ∉ SUPPORTED_FORMATS ↔
        transcribe_file fsExists engine file_path = .unsupportedFormat (pathSuffix file_path))) ∧
    ((fsExists file_path = false ∨ lowerStr (pathSuffix file_path) ∉ SUPPORTED_FORMATS) →
      ∀ engine', transcribe_file fsExists engine file_path = transcribe_file fsExists engine' file_path) := by
  refine ⟨?_, ?_, ?_, ?_⟩
  · intro h
    simp [transcribe_file, h]
  · intro h
    by_cases hfe : fsExists file_path = false
    · exact hfe
    · exfalso
      have hfe' : fsExists file_path = true := by
        cases hx : fsExists file_path
        · exact absurd hx hfe
        · rfl
      by_cases hfmt : lowerStr (pathSuffix file_path) ∈ SUPPORTED_FORMATS
      · cases engine with
        | error e => simp [transcribe_file, hfe', hfmt] at h
        | ok segs => simp [transcribe_file, hfe', hfmt] at h
      · simp [transcribe_file, hfe', hfmt] at h
  · intro hfe
    constructor
    · intro hfmt
      simp [transcribe_file, hfe, hfmt]
    · intro h
      by_cases hfmt : lowerStr (pathSuffix file_path) ∈ SUPPORTED_FORMATS
      · exfalso
        cases engine with
        | error e => simp [transcribe_file, hfe, hfmt] at h
        | ok segs => simp [transcribe_file, hfe, hfmt] at h
      · exact hfmt
  · intro h engine'
    rcases h with h | h
    · simp [transcribe_file, h]
    · by_cases hfe : fsExists file_path = false
      · simp [transcribe_file, hfe]
      · have hfe' : fsExists file_path = true := by
          cases hx : fsExists file_path
          · exact absurd hx hfe
          · rfl
        simp [transcribe_file, hfe', h]

/-- C5 witness: a missing file is reported as `NotFound`. -/
theorem transcribe_validation_spec_witness :
    transcribe_file (fun _ => false) (Except.ok []) "a.xyz" = .notFound "a.xyz" :=
  (transcribe_validation_spec (fun _ => false) (Except.ok []) "a.xyz").1 rfl

/-! ## Claim C6: export format allow-list and single-file write effect -/

/-- C6. `export_transcription` succeeds for exactly the five formats
(case-insensitively), returning the output path and writing exactly one
file at it (overwriting, all other paths untouched); any other format
raises `UnsupportedFormat` and writes nothing. -/
theorem export_dispatch_spec (segs : List TranscriptionSegment) (format output_path : String)
    (include_metadata : Bool) (fs : String → Option String) :
    (lowerStr format ∈ EXPORT_FORMATS →
      (export_transcription segs format output_path include_metadata fs).1 = .ok output_path ∧
      ∃ c, (export_transcription segs format output_path include_metadata fs).2
        = fsUpdate fs output_path c) ∧
    (∀ p c' q, fsUpdate fs p c' p = some c' ∧ (q ≠ p → fsUpdate fs p c' q = fs q)) ∧
    (lowerStr format ∉ EXPORT_FORMATS →
      (export_transcription segs format output_path include_metadata fs).1
        = .error ("Unsupported export format: " ++ lowerStr format) ∧
      (export_transcription segs format output_path include_metadata fs).2 = fs) := by
  refine ⟨?_, ?_, ?_⟩
  · intro hmem
    simp only [EXPORT_FORMATS, List.mem_cons, List.not_mem_nil, or_false] at hmem
    rcases hmem with h | h | h | h | h
    · exact ⟨by simp [export_transcription, h], contentJson segs, by simp [export_transcription, h]⟩
    · exact ⟨by simp [export_transcription, h], contentTxt segs include_metadata,
        by simp [export_transcription, h]⟩
    · exact ⟨by simp [export_transcription, h], String.mk (exportSrtChars segs),
        by simp [export_transcription, h]⟩
    · exact ⟨by simp [export_transcription, h], contentVtt segs,
        by simp [export_transcription, h]⟩
    · exact ⟨by simp [export_transcription, h], contentCsv segs,
        by simp [export_transcription, h]⟩
  · intro p c' q
    exact ⟨by simp [fsUpdate], fun hq => by simp [fsUpdate, hq]⟩
  · intro hmem
    have hj : lowerStr format ≠ "json" := fun he => hmem (by simp [EXPORT_FORMATS, he])
    have ht : lowerStr format ≠ "txt" := fun he => hmem (by simp [EXPORT_FORMATS, he])
    have hs : lowerStr format ≠ "srt" := fun he => hmem (by simp [EXPORT_FORMATS, he])
    have hv : lowerStr format ≠ "vtt" := fun he => hmem (by simp [EXPORT_FORMATS, he])
    have hc : lowerStr format ≠ "csv" := fun he => hmem (by simp [EXPORT_FORMATS, he])
    exact ⟨by simp [export_transcription, hj, ht, hs, hv, hc], by simp [export_transcription, hj, ht, hs, hv, hc]⟩

/-- C6 witness: exporting with format `"JSON"` (case-insensitive match)
succeeds and performs a single pointwise file-system update. -/
theorem export_dispatch_spec_witness :
    (export_transcription [] "JSON" "out.json" true (fun _ => none)).1 = .ok "out.json" ∧
    ∃ c, (export_transcription [] "JSON" "out.json" true (fun _ => none)).2
      = fsUpdate (fun _ => none) "out.json" c :=
  (export_dispatch_spec [] "JSON" "out.json" true (fun _ => none)).1 (by decide)

/-! ## Claim C8: progress monotonicity for successful jobs -/

/-- C8. For a job whose processing completes successfully, the sequence of
values written to `job.progress` — 10 at `Processing` start, then the
pipeline milestones (10, 20 only on first model load; 25, 30, 70; 75 only
when diarizing; 95), then 100 on completion — is non-decreasing and ends
at exactly 100, for every combination of model-loading and diarization. -/
theorem progress_monotone_spec (modelLoaded diarize : Bool) (segs : List TranscriptionSegment) :
    List.Chain' (· ≤ ·)
      (processJobProgressTrace (.ok (transcribeProgressUpdates modelLoaded diarize) segs)) ∧
    (processJobProgressTrace (.ok (transcribeProgressUpdates modelLoaded diarize) segs)).getLast?
      = some 100 := by
  cases modelLoaded <;> cases diarize <;>
    refine ⟨?_, by rfl⟩ <;>
    norm_num [processJobProgressTrace, transcribeProgressUpdates, List.chain'_cons]

/-! ## Claim C1: per-job completion signalling, failure capture, isolation -/

theorem tblGet_updateJob : ∀ (jobs : List (String × BatchJob)) (jid k : String)
    (f : BatchJob → BatchJob),
    tblGet (updateJob jobs jid f) k = if k = jid then (tblGet jobs k).map f else tblGet jobs k := by
  intro jobs jid k f
  induction jobs with
  | nil => simp [updateJob, tblGet]
  | cons kv jobs ih =>
    obtain ⟨a, b⟩ := kv
    by_cases ha : a = jid
    · subst ha
      by_cases hk : k = a
      · subst hk
        simp [updateJob, tblGet]
      · simp only [updateJob] at ih ⊢
        simp [tblGet, hk, ih]
    · by_cases hk : k = a
      · subst hk
        simp [updateJob, tblGet, ha]
      · simp only [updateJob] at ih ⊢
        simp [tblGet, hk, ha, ih]

theorem tblGet_applyProgressUpdates_ne (ups : List (ℚ × String)) :
    ∀ (jobs : List (String × BatchJob)) (jid k : String), k ≠ jid →
      tblGet (applyProgressUpdates jobs jid ups) k = tblGet jobs k := by
  induction ups with
  | nil => intro jobs jid k _; rfl
  | cons u ups ih =>
    intro jobs jid k hk
    show tblGet (applyProgressUpdates (updateJob jobs jid _) jid ups) k = _
    rw [ih _ _ _ hk, tblGet_updateJob, if_neg hk]

theorem tblGet_applyProgressUpdates_some (ups : List (ℚ × String)) :
    ∀ (jobs : List (String × BatchJob)) (jid : String) (j0 : BatchJob),
      tblGet jobs jid = some j0 →
      ∃ j1, tblGet (applyProgressUpdates jobs jid ups) jid = some j1 := by
  induction ups with
  | nil => intro jobs jid j0 h; exact ⟨j0, h⟩
  | cons u ups ih =>
    intro jobs jid j0 h
    have h1 : tblGet (updateJob jobs jid (fun j =>
        { j with progress := u.1, metadata := { j.metadata with status_message := some u.2 } })) jid
        = some { j0 with progress := u.1, metadata := { j0.metadata with status_message := some u.2 } } := by
      rw [tblGet_updateJob, if_pos rfl, h]
      rfl
    exact ih _ jid _ h1

/-- C1. `_process_job` pushes the job id onto the completion queue exactly
once, as the final step, on success and on every failure path; on any
error (transcription raise or export raise) the job's status becomes
`Failed` with the exception's message in `error`; and every other job's
record is left untouched. -/
theorem process_job_completion_spec (st : BatchManagerState) (jid : String)
    (outcome : PipelineOutcome) (exportOutcome : Except String Unit) (ts : String) (now : ℕ) :
    (process_job st jid outcome exportOutcome ts now).completed_queue
        = st.completed_queue ++ [jid] ∧
    (∀ k, k ≠ jid →
      tblGet (process_job st jid outcome exportOutcome ts now).jobs k = tblGet st.jobs k) ∧
    (∀ ups msg j0, outcome = .raised ups msg → tblGet st.jobs jid = some j0 →
      ∃ j', tblGet (process_job st jid outcome exportOutcome ts now).jobs jid = some j' ∧
        j'.status = .failed ∧ j'.error = some msg) ∧
    (∀ ups segs e j0, outcome = .ok ups segs → exportOutcome = .error e →
      tblGet st.jobs jid = some j0 →
      ∃ j', tblGet (process_job st jid outcome exportOutcome ts now).jobs jid = some j' ∧
        j'.status = .failed ∧ j'.error = some e) := by
  refine ⟨?_, ?_, ?_, ?_⟩
  · cases outcome with
    | raised ups msg => rfl
    | ok ups segs => cases exportOutcome <;> rfl
  · intro k hk
    cases outcome with
    | raised ups msg =>
      simp only [process_job]
      rw [tblGet_updateJob, if_neg hk, tblGet_applyProgressUpdates_ne _ _ _ _ hk,
        tblGet_updateJob, if_neg hk]
    | ok ups segs =>
      cases exportOutcome with
      | error e =>
        simp only [process_job]
        rw [tblGet_updateJob, if_neg hk, tblGet_applyProgressUpdates_ne _ _ _ _ hk,
          tblGet_updateJob, if_neg hk]
      | ok u =>
        simp only [process_job]
        rw [tblGet_updateJob, if_neg hk, tblGet_applyProgressUpdates_ne _ _ _ _ hk,
          tblGet_updateJob, if_neg hk]
  · rintro ups msg j0 rfl h0
    have h1 : tblGet (updateJob st.jobs jid (fun j =>
        { j with status := .processing, progress := 10 })) jid
        = some { j0 with status := .processing, progress := 10 } := by
      rw [tblGet_updateJob, if_pos rfl, h0]
      rfl
    rcases tblGet_applyProgressUpdates_some ups _ jid _ h1 with ⟨j1, hj1⟩
    refine ⟨{ j1 with status := .failed, error := some msg }, ?_, rfl, rfl⟩
    simp only [process_job]
    rw [tblGet_updateJob, if_pos rfl, hj1]
    rfl
  · rintro ups segs e j0 rfl rfl h0
    have h1 : tblGet (updateJob st.jobs jid (fun j =>
        { j with status := .processing, progress := 10 })) jid
        = some { j0 with status := .processing, progress := 10 } := by
      rw [tblGet_updateJob, if_pos rfl, h0]
      rfl
    rcases tblGet_applyProgressUpdates_some ups _ jid _ h1 with ⟨j1, hj1⟩
    refine ⟨{ j1 with status := .failed, error := some e }, ?_, rfl, rfl⟩
    simp only [process_job]
    rw [tblGet_updateJob, if_pos rfl, hj1]
    rfl

/-- Concrete one-job scheduler state used by the C1 witness. -/
def procWitnessSt : BatchManagerState :=
  ⟨[("j", mkBatchJob "j" "p.wav" ⟨none, true⟩ 3 0)], [], []⟩

/-- C1 witness: with one job `"j"` in the table, a raised transcription
error leaves the record of the unrelated key `"other"` unchanged. -/
theorem process_job_completion_spec_witness :
    tblGet (process_job procWitnessSt "j" (.raised [] "boom") (.ok ()) "t" 0).jobs "other"
      = tblGet procWitnessSt.jobs "other" :=
  (process_job_completion_spec procWitnessSt "j" (.raised [] "boom") (.ok ()) "t" 0).2.1
    "other" (by decide)

/-! ## Claim C2: `get_all_jobs` returns live references, not snapshots -/

theorem tblGet_mem {β : Type} : ∀ (l : List (String × β)) (k : String) (v : β),
    tblGet l k = some v → (k, v) ∈ l := by
  intro l
  induction l with
  | nil => intro k v h; simp [tblGet] at h
  | cons kv l ih =>
    intro k v h
    by_cases hk : k = kv.1
    · simp only [tblGet, if_pos hk] at h
      injection h with h2
      subst hk
      simp [← h2]
    · simp only [tblGet, if_neg hk] at h
      exact List.mem_cons_of_mem _ (ih k v h)

theorem heapWrite_read (h : List BatchJob) (a : ℕ) (f : BatchJob → BatchJob) :
    (heapWrite h a f)[a]? = h[a]?.map f := by
  cases hj : h[a]? with
  | none => simp [heapWrite, hj]
  | some j =>
    have hlt : a < h.length := by
      by_contra hge
      rw [List.getElem?_eq_none (le_of_not_lt hge)] at hj
      cases hj
    simp [heapWrite, hj, List.getElem?_set_self hlt]

/-- Status record for the C2 counterexample. -/
def refExJob : BatchJob := mkBatchJob "job_0_a.wav" "a.wav" ⟨none, true⟩ 3 0

/-- One-job reference state for the C2 counterexample. -/
def refExState : RefState := ⟨[refExJob], [("job_0_a.wav", 0)]⟩

/-- C2 counterexample: the claim "any mutation of the job table performed
after the call leaves the previously returned Job values unchanged" is
false on the code.  `get_all_jobs` (`list(self.jobs.values())`) copies only
the list of references; after a worker's progress write through the table,
dereferencing the previously returned reference yields a different record. -/
theorem get_all_jobs_snapshot_counterexample :
    get_all_jobs refExState = [0] ∧
    readJob refExState 0 = some refExJob ∧
    readJob (workerSetProgress refExState "job_0_a.wav" 50 "m") 0 ≠ some refExJob := by
  refine ⟨rfl, rfl, ?_⟩
  intro h
  have hp := congrArg (fun o => (Option.map (fun j => j.progress) o).getD 0) h
  simp [workerSetProgress, refExState, tblGet, heapWrite, refExJob, mkBatchJob, readJob] at hp

/-- C2 amended: `get_all_jobs` returns a fresh list whose membership is a
snapshot of the table, but its elements are the table's live references:
for every state, every id bound to some reference, and every later worker
progress write to that id, the reference is among those `get_all_jobs`
returned and dereferencing it afterwards observes exactly the mutated
record (old record with `progress` and `status_message` updated). -/
theorem get_all_jobs_returns_live_references (s : RefState) (jid : String) (a : ℕ)
    (pct : ℚ) (msg : String) (h : tblGet s.table jid = some a) :
    a ∈ get_all_jobs s ∧
    readJob (workerSetProgress s jid pct msg) a
      = (readJob s a).map (fun j =>
          { j with progress := pct, metadata := { j.metadata with status_message := some msg } }) := by
  constructor
  · have hmem := tblGet_mem s.table jid a h
    exact List.mem_map.2 ⟨(jid, a), hmem, rfl⟩
  · simp only [workerSetProgress, h, readJob]
    exact heapWrite_read s.heap a _

/-- C2 amended witness: the concrete one-job state, mutated through the
live reference. -/
theorem get_all_jobs_returns_live_references_witness :
    0 ∈ get_all_jobs refExState ∧
    readJob (workerSetProgress refExState "job_0_a.wav" 50 "m") 0
      = (readJob refExState 0).map (fun j =>
          { j with progress := 50, metadata := { j.metadata with status_message := some "m" } }) :=
  get_all_jobs_returns_live_references refExState "job_0_a.wav" 0 50 "m" (by decide)

/-! ## Claims C9/C10: job-id uniqueness and non-atomicity of `add_jobs` -/

theorem tblGet_append {β : Type} : ∀ (l₁ l₂ : List (String × β)) (k : String),
    tblGet (l₁ ++ l₂) k = match tblGet l₁ k with
      | some v => some v
      | none => tblGet l₂ k := by
  intro l₁
  induction l₁ with
  | nil => intro l₂ k; rfl
  | cons kv l₁ ih =>
    intro l₂ k
    by_cases hk : k = kv.1
    · simp [tblGet, hk]
    · simp only [List.cons_append, tblGet, if_neg hk]
      exact ih l₂ k

theorem tblGet_eq_none_iff {β : Type} : ∀ (l : List (String × β)) (k : String),
    tblGet l k = none ↔ k ∉ l.map Prod.fst := by
  intro l
  induction l with
  | nil => intro k; simp [tblGet]
  | cons kv l ih =>
    intro k
    by_cases hk : k = kv.1
    · simp [tblGet, hk]
    · simp [tblGet, hk, ih]

theorem mkJobId_data (n : ℕ) (p : String) :
    (mkJobId n p).data = "job_".data ++ (natChars n ++ ('_' :: (basename p).data)) := by
  show (("job_" ++ natString n ++ "_" ++ basename p)).data = _
  simp only [String.data_append, List.append_assoc]
  congr 2

/-- The numeric component of a job id determines it: ids formed from
different table sizes are distinct, whatever the basenames. -/
theorem mkJobId_inj_nat {n m : ℕ} {p q : String} (h : mkJobId n p = mkJobId m q) : n = m := by
  have hd := congrArg String.data h
  rw [mkJobId_data, mkJobId_data] at hd
  have h2 : natChars n ++ ('_' :: (basename p).data) = natChars m ++ ('_' :: (basename q).data) :=
    List.append_cancel_left hd
  have hu : ('_' : Char).isDigit = false := by decide
  have ht1 : takeDigits (natChars n ++ ('_' :: (basename p).data)) = (natChars n, '_' :: (basename p).data) :=
    takeDigits_append (natChars_isDigit n) (by simp [notDigitStart, hu])
  have ht2 : takeDigits (natChars m ++ ('_' :: (basename q).data)) = (natChars m, '_' :: (basename q).data) :=
    takeDigits_append (natChars_isDigit m) (by simp [notDigitStart, hu])
  have hnc : natChars n = natChars m := by
    have := congrArg (fun l => (takeDigits l).1) h2
    simpa [ht1, ht2] using this
  have := congrArg digitVal hnc
  rwa [digitVal_natChars, digitVal_natChars] at this

theorem newIdsFor_length : ∀ (base : ℕ) (ps : List String),
    (newIdsFor base ps).length = ps.length := by
  intro base ps
  induction ps generalizing base with
  | nil => rfl
  | cons p ps ih => simp [newIdsFor, ih]

/-- A fresh id derived from the current table size is not a key yet, so the
dict assignment appends, and well-formedness is preserved. -/
theorem dictInsert_fresh (jobs : List (String × BatchJob)) (p : String) (v : BatchJob)
    (hwf : JobsWellFormed jobs) :
    tblGet jobs (mkJobId jobs.length p) = none ∧
    dictInsert jobs (mkJobId jobs.length p) v = jobs ++ [(mkJobId jobs.length p, v)] ∧
    JobsWellFormed (jobs ++ [(mkJobId jobs.length p, v)]) := by
  have hnone : tblGet jobs (mkJobId jobs.length p) = none := by
    cases hx : tblGet jobs (mkJobId jobs.length p) with
    | none => rfl
    | some v' =>
      exfalso
      have hmem := tblGet_mem jobs _ _ hx
      rcases hwf.2 _ hmem with ⟨n, q, hid, hlt⟩
      have := mkJobId_inj_nat hid.symm
      omega
  refine ⟨hnone, ?_, ?_, ?_⟩
  · simp [dictInsert, hnone]
  · -- keys stay distinct
    rw [List.map_append]
    rw [List.nodup_append]
    refine ⟨hwf.1, List.nodup_singleton _, ?_⟩
    intro k hk hk1
    simp only [List.map_cons, List.map_nil, List.mem_singleton] at hk1
    subst hk1
    exact absurd ((tblGet_eq_none_iff jobs _).1 hnone) (by simp [hk])
  · -- every key still derived from a smaller table size
    intro kv hkv
    rcases List.mem_append.1 hkv with hkv | hkv
    · rcases hwf.2 _ hkv with ⟨n, q, hid, hlt⟩
      refine ⟨n, q, hid, ?_⟩
      rw [List.length_append]
      omega
    · simp only [List.mem_singleton] at hkv
      subst hkv
      refine ⟨jobs.length, p, rfl, ?_⟩
      rw [List.length_append]
      simp

theorem add_jobs_ok_spec (getsize : String → Except String ℕ) (settings : Settings) (now : ℕ) :
    ∀ (paths : List String) (st st' : BatchManagerState) (ids : List String),
      JobsWellFormed st.jobs →
      add_jobs getsize settings now st paths = .ok st' ids →
      ids = newIdsFor st.jobs.length paths ∧
      ids.Nodup ∧
      (∀ id ∈ ids, tblGet st.jobs id = none) ∧
      st'.jobs.map Prod.fst = st.jobs.map Prod.fst ++ ids ∧
      st'.job_queue = st.job_queue ++ ids ∧
      st'.completed_queue = st.completed_queue ∧
      JobsWellFormed st'.jobs := by
  intro paths
  induction paths with
  | nil =>
    intro st st' ids hwf h
    simp only [add_jobs, AddJobsResult.ok.injEq] at h
    obtain ⟨rfl, rfl⟩ := h
    simp [newIdsFor, hwf]
  | cons p ps ih =>
    intro st st' ids hwf h
    cases hg : getsize p with
    | error e => simp [add_jobs, hg] at h
    | ok sz =>
      obtain ⟨hfresh, hins, hwf1⟩ := dictInsert_fresh st.jobs p (mkBatchJob
        (mkJobId st.jobs.length p) p settings sz now) hwf
      simp only [add_jobs, hg] at h
      set st1 : BatchManagerState := ⟨dictInsert st.jobs (mkJobId st.jobs.length p)
        (mkBatchJob (mkJobId st.jobs.length p) p settings sz now),
        st.job_queue ++ [mkJobId st.jobs.length p], st.completed_queue⟩ with hst1
      cases hrec : add_jobs getsize settings now st1 ps with
      | raised st2 e =>
        rw [hrec] at h
        cases h
      | ok st2 ids2 =>
        rw [hrec] at h
        simp only [AddJobsResult.ok.injEq] at h
        obtain ⟨rfl, rfl⟩ := h
        have hjobs1 : st1.jobs
            = st.jobs ++ [(mkJobId st.jobs.length p,
                mkBatchJob (mkJobId st.jobs.length p) p settings sz now)] := by
          rw [hst1]
          exact hins
        have hwfst1 : JobsWellFormed st1.jobs := by
          rw [hjobs1]
          exact hwf1
        obtain ⟨hids2, hnodup2, hnone2, hkeys2, hqueue2, hcomp2, hwf2⟩ :=
          ih st1 st2 ids2 hwfst1 hrec
        have hlen1 : st1.jobs.length = st.jobs.length + 1 := by
          rw [hjobs1, List.length_append]
          rfl
        have hkeys1 : st1.jobs.map Prod.fst
            = st.jobs.map Prod.fst ++ [mkJobId st.jobs.length p] := by
          rw [hjobs1, List.map_append]
          rfl
        have hjidkey : tblGet st1.jobs (mkJobId st.jobs.length p)
            = some (mkBatchJob (mkJobId st.jobs.length p) p settings sz now) := by
          rw [hjobs1, tblGet_append, hfresh]
          simp [tblGet]
        have hjid_not2 : mkJobId st.jobs.length p ∉ ids2 := by
          intro hmem
          have := hnone2 _ hmem
          rw [hjidkey] at this
          cases this
        refine ⟨?_, ?_, ?_, ?_, ?_, ?_, hwf2⟩
        · rw [newIdsFor, ← hlen1, ← hids2]
        · exact List.Nodup.cons hjid_not2 hnodup2
        · intro id hid
          rcases List.mem_cons.1 hid with hid | hid
          · subst hid
            exact hfresh
          · have h2 := hnone2 _ hid
            rw [hjobs1, tblGet_append] at h2
            revert h2
            cases hx : tblGet st.jobs id with
            | none => intro _; rfl
            | some v => intro hc; cases hc
        · rw [hkeys2, hkeys1, List.append_assoc]
          rfl
        · have hq1 : st1.job_queue = st.job_queue ++ [mkJobId st.jobs.length p] := by
            rw [hst1]
          rw [hqueue2, hq1, List.append_assoc]
          rfl
        · rw [hcomp2, hst1]

/-- C9. Job-id uniqueness: starting from any well-formed table (the empty
table of a fresh scheduler, or any table earlier `add_jobs` calls built),
each successful `add_jobs` call returns, in input order, the ids
`job_{size}_{basename}` for successive table sizes; these are pairwise
distinct and distinct from every existing key — even when paths share a
basename within one call — so no insertion ever overwrites a job-table
entry, and the table stays well-formed for subsequent calls. -/
theorem add_jobs_unique_ids (getsize : String → Except String ℕ) (settings : Settings) (now : ℕ)
    (paths : List String) (st st' : BatchManagerState) (ids : List String)
    (hwf : JobsWellFormed st.jobs)
    (h : add_jobs getsize settings now st paths = .ok st' ids) :
    ids = newIdsFor st.jobs.length paths ∧
    ids.Nodup ∧
    (∀ id ∈ ids, tblGet st.jobs id = none) ∧
    st'.jobs.map Prod.fst = st.jobs.map Prod.fst ++ ids ∧
    (st'.jobs.map Prod.fst).Nodup ∧
    JobsWellFormed st'.jobs := by
  obtain ⟨h1, h2, h3, h4, _, _, h7⟩ := add_jobs_ok_spec getsize settings now paths st st' ids hwf h
  exact ⟨h1, h2, h3, h4, h7.1, h7⟩

/-- Table state produced by the C9 witness call: two files sharing the
basename `x.wav`. -/
def addJobsWitnessSt : BatchManagerState :=
  ⟨[("job_0_x.wav", mkBatchJob "job_0_x.wav" "a/x.wav" ⟨none, true⟩ 3 0),
    ("job_1_x.wav", mkBatchJob "job_1_x.wav" "b/x.wav" ⟨none, true⟩ 3 0)],
   ["job_0_x.wav", "job_1_x.wav"], []⟩

/-- C9 witness: adding `a/x.wav` and `b/x.wav` (same basename) in one call
to a fresh scheduler yields the distinct ids `job_0_x.wav`, `job_1_x.wav`. -/
theorem add_jobs_unique_ids_witness :
    (["job_0_x.wav", "job_1_x.wav"] : List String).Nodup :=
  (add_jobs_unique_ids (fun _ => Except.ok 3) ⟨none, true⟩ 0 ["a/x.wav", "b/x.wav"]
    ⟨[], [], []⟩ addJobsWitnessSt ["job_0_x.wav", "job_1_x.wav"]
    ⟨List.nodup_nil, by simp⟩ (by decide)).2.1

/-- C10. `add_jobs` is not atomic on error: if reading the file size fails
at some path, the exception message propagates (`raised`, so no id list is
returned), yet the jobs created for the paths before it remain in the job
table and sit in the work queue, while the completion queue is untouched. -/
theorem add_jobs_partial_on_error (getsize : String → Except String ℕ) (settings : Settings)
    (now : ℕ) :
    ∀ (pre : List String) (st : BatchManagerState) (bad : String) (post : List String) (e : String),
      JobsWellFormed st.jobs →
      (∀ p ∈ pre, ∃ n, getsize p = .ok n) →
      getsize bad = .error e →
      ∃ st', add_jobs getsize settings now st (pre ++ bad :: post) = .raised st' e ∧
        st'.jobs.map Prod.fst = st.jobs.map Prod.fst ++ newIdsFor st.jobs.length pre ∧
        st'.job_queue = st.job_queue ++ newIdsFor st.jobs.length pre ∧
        st'.completed_queue = st.completed_queue ∧
        (newIdsFor st.jobs.length pre).length = pre.length := by
  intro pre
  induction pre with
  | nil =>
    intro st bad post e hwf hpre hbad
    refine ⟨st, ?_, by simp [newIdsFor], by simp [newIdsFor], rfl, rfl⟩
    simp [add_jobs, hbad]
  | cons p pre ih =>
    intro st bad post e hwf hpre hbad
    obtain ⟨sz, hsz⟩ := hpre p (by simp)
    obtain ⟨hfresh, hins, hwf1⟩ := dictInsert_fresh st.jobs p (mkBatchJob
      (mkJobId st.jobs.length p) p settings sz now) hwf
    set st1 : BatchManagerState := ⟨dictInsert st.jobs (mkJobId st.jobs.length p)
      (mkBatchJob (mkJobId st.jobs.length p) p settings sz now),
      st.job_queue ++ [mkJobId st.jobs.length p], st.completed_queue⟩ with hst1
    have hjobs1 : st1.jobs
        = st.jobs ++ [(mkJobId st.jobs.length p,
            mkBatchJob (mkJobId st.jobs.length p) p settings sz now)] := by
      rw [hst1]
      exact hins
    have hwfst1 : JobsWellFormed st1.jobs := by
      rw [hjobs1]
      exact hwf1
    obtain ⟨st', hrec, hkeys, hqueue, hcomp, hlenids⟩ :=
      ih st1 bad post e hwfst1 (fun q hq => hpre q (by simp [hq])) hbad
    have hlen1 : st1.jobs.length = st.jobs.length + 1 := by
      rw [hjobs1, List.length_append]
      rfl
    refine ⟨st', ?_, ?_, ?_, ?_, ?_⟩
    · simp only [add_jobs, hsz, List.append_eq]
      rw [hrec]
    · have hkeys1 : st1.jobs.map Prod.fst
          = st.jobs.map Prod.fst ++ [mkJobId st.jobs.length p] := by
        rw [hjobs1, List.map_append]
        rfl
      rw [hkeys, hkeys1, hlen1, List.append_assoc]
      rfl
    · have hq1 : st1.job_queue = st.job_queue ++ [mkJobId st.jobs.length p] := by
        rw [hst1]
      rw [hqueue, hq1, hlen1, List.append_assoc]
      rfl
    · rw [hcomp, hst1]
    · rw [hlen1] at hlenids
      show (newIdsFor st.jobs.length (p :: pre)).length = (p :: pre).length
      rw [newIdsFor]
      simp [hlenids]

/-- Size oracle for the C10 witness: fails only on the path `"bad"`. -/
def addJobsFailGetsize : String → Except String ℕ :=
  fun p => if p = "bad" then Except.error "boom" else Except.ok 3

/-- C10 witness: adding `["a/x.wav", "bad"]` to a fresh scheduler raises
`"boom"` yet leaves the job for `a/x.wav` in the table and queue. -/
theorem add_jobs_partial_on_error_witness :
    ∃ st', add_jobs addJobsFailGetsize ⟨none, true⟩ 0 ⟨[], [], []⟩
        (["a/x.wav"] ++ "bad" :: []) = .raised st' "boom" ∧
      st'.jobs.map Prod.fst
        = (⟨[], [], []⟩ : BatchManagerState).jobs.map Prod.fst
            ++ newIdsFor (⟨[], [], []⟩ : BatchManagerState).jobs.length ["a/x.wav"] ∧
      st'.job_queue = (⟨[], [], []⟩ : BatchManagerState).job_queue
          ++ newIdsFor (⟨[], [], []⟩ : BatchManagerState).jobs.length ["a/x.wav"] ∧
      st'.completed_queue = (⟨[], [], []⟩ : BatchManagerState).completed_queue ∧
      (newIdsFor (⟨[], [], []⟩ : BatchManagerState).jobs.length ["a/x.wav"]).length
        = (["a/x.wav"] : List String).length :=
  add_jobs_partial_on_error addJobsFailGetsize ⟨none, true⟩ 0 ["a/x.wav"] ⟨[], [], []⟩
    "bad" [] "boom" ⟨List.nodup_nil, by simp⟩
    (by
      intro q hq
      rw [List.mem_singleton] at hq
      subst hq
      exact ⟨3, rfl⟩)
    rfl

/-! ## Claim C7: SRT round-trip -/

theorem notDigitStart_cons (c : Char) (l : List Char) (h : c.isDigit = false) :
    notDigitStart (c :: l) := h

theorem parseNatRun_pad (w n : ℕ) (rest : List Char) (hrest : notDigitStart rest) :
    parseNatRun (padZ w (natChars n) ++ rest) = some (n, rest) := by
  have ht := takeDigits_append (padZ_isDigit w (natChars n) (natChars_isDigit n)) hrest
  have hpos : 0 < (padZ w (natChars n)).length := by
    rw [padZ, List.length_append, List.length_replicate]
    have := List.length_pos.2 (natChars_ne_nil n)
    omega
  have hne : (padZ w (natChars n)).isEmpty = false := by
    cases hx : padZ w (natChars n) with
    | nil =>
      rw [hx] at hpos
      simp at hpos
    | cons a l => rfl
  rw [parseNatRun, ht]
  simp [hne, digitVal_padZ, digitVal_natChars]

theorem expectSeq_append : ∀ (p rest : List Char), expectSeq p (p ++ rest) = some rest := by
  intro p
  induction p with
  | nil => intro rest; rfl
  | cons c cs ih => intro rest; simp [expectSeq, ih]

/-- The four timestamp fields, recomputed from the millisecond total; this
is the pure-arithmetic normal form of `format_timestamp_srt` for
nonnegative times. -/
def tsCharsN (n : ℕ) : List Char :=
  padZ 2 (natChars (n / 3600000)) ++
  ':' :: padZ 2 (natChars (n / 60000 % 60)) ++
  ':' :: padZ 2 (natChars (n / 1000 % 60)) ++
  ',' :: padZ 3 (natChars (n % 1000))

theorem format_timestamp_srt_eq (s : ℚ) (hs : 0 ≤ s) :
    format_timestamp_srt s = tsCharsN (⌊s * 1000⌋).toNat := by
  have hN0 : (0 : ℤ) ≤ ⌊s * 1000⌋ := Int.floor_nonneg.2 (by positivity)
  have h3600 : ⌊s / 3600⌋ = ⌊s⌋ / 3600 := by
    have h := floor_div_pos_int s 3600 (by norm_num)
    rw [← h]
    norm_num
  have h60 : ⌊s / 60⌋ = ⌊s⌋ / 60 := by
    have h := floor_div_pos_int s 60 (by norm_num)
    rw [← h]
    norm_num
  have hA : ⌊s⌋ = ⌊s * 1000⌋ / 1000 := by
    have h1 : s = s * 1000 / ((1000 : ℤ) : ℚ) := by
      push_cast
      ring
    calc ⌊s⌋ = ⌊s * 1000 / ((1000 : ℤ) : ℚ)⌋ := by rw [← h1]
    _ = ⌊s * 1000⌋ / 1000 := floor_div_pos_int _ 1000 (by norm_num)
  have hmin : ⌊pymod s 3600 / 60⌋ = ⌊s⌋ / 60 - 60 * (⌊s⌋ / 3600) := by
    have h1 : pymod s 3600 / 60 = s / 60 - ((60 * (⌊s⌋ / 3600) : ℤ) : ℚ) := by
      rw [pymod, h3600]
      push_cast
      ring
    rw [h1, Int.floor_sub_int, h60]
  have hsec : ⌊pymod s 60⌋ = ⌊s⌋ - 60 * (⌊s⌋ / 60) := by
    have h1 : pymod s 60 = s - ((60 * (⌊s⌋ / 60) : ℤ) : ℚ) := by
      rw [pymod, h60]
      push_cast
      ring
    rw [h1, Int.floor_sub_int]
  have hms : ⌊pymod s 1 * 1000⌋ = ⌊s * 1000⌋ - 1000 * ⌊s⌋ := by
    have hdiv1 : ⌊s / 1⌋ = ⌊s⌋ := by rw [div_one]
    have h1 : pymod s 1 * 1000 = s * 1000 - ((1000 * ⌊s⌋ : ℤ) : ℚ) := by
      rw [pymod, hdiv1]
      push_cast
      ring
    rw [h1, Int.floor_sub_int]
  have c1 : (⌊s / 3600⌋).toNat = (⌊s * 1000⌋).toNat / 3600000 := by
    rw [h3600, hA]
    omega
  have c2 : (⌊pymod s 3600 / 60⌋).toNat = (⌊s * 1000⌋).toNat / 60000 % 60 := by
    rw [hmin, hA]
    omega
  have c3 : (⌊pymod s 60⌋).toNat = (⌊s * 1000⌋).toNat / 1000 % 60 := by
    rw [hsec, hA]
    omega
  have c4 : (⌊pymod s 1 * 1000⌋).toNat = (⌊s * 1000⌋).toNat % 1000 := by
    rw [hms, hA]
    omega
  simp only [format_timestamp_srt, tsComponents, tsCharsN, c1, c2, c3, c4]

theorem parseTS_tsCharsN (n : ℕ) (rest : List Char) (hrest : notDigitStart rest) :
    parseTS (tsCharsN n ++ rest) = some ((n : ℚ) / 1000, rest) := by
  have hcolon : (':' : Char).isDigit = false := by decide
  have hcomma : (',' : Char).isDigit = false := by decide
  have hshape : tsCharsN n ++ rest
      = padZ 2 (natChars (n / 3600000)) ++ (':' :: (padZ 2 (natChars (n / 60000 % 60)) ++
        (':' :: (padZ 2 (natChars (n / 1000 % 60)) ++ (',' :: (padZ 3 (natChars (n % 1000)) ++ rest)))))) := by
    simp [tsCharsN]
  have h1 := parseNatRun_pad 2 (n / 3600000)
    (':' :: (padZ 2 (natChars (n / 60000 % 60)) ++ (':' :: (padZ 2 (natChars (n / 1000 % 60)) ++
      (',' :: (padZ 3 (natChars (n % 1000)) ++ rest))))))
    (notDigitStart_cons _ _ hcolon)
  have h2 := parseNatRun_pad 2 (n / 60000 % 60)
    (':' :: (padZ 2 (natChars (n / 1000 % 60)) ++ (',' :: (padZ 3 (natChars (n % 1000)) ++ rest))))
    (notDigitStart_cons _ _ hcolon)
  have h3 := parseNatRun_pad 2 (n / 1000 % 60)
    (',' :: (padZ 3 (natChars (n % 1000)) ++ rest))
    (notDigitStart_cons _ _ hcomma)
  have h4 := parseNatRun_pad 3 (n % 1000) rest hrest
  rw [hshape, parseTS]
  simp [h1, h2, h3, h4, expectCh]
  have keyN : (n / 3600000) * 3600000 + (n / 60000 % 60) * 60000 + (n / 1000 % 60) * 1000
      + n % 1000 = n := by omega
  have keyQ : ((n / 3600000 : ℕ) : ℚ) * 3600000 + ((n / 60000 % 60 : ℕ) : ℚ) * 60000
      + ((n / 1000 % 60 : ℕ) : ℚ) * 1000 + ((n % 1000 : ℕ) : ℚ) = (n : ℚ) := by
    exact_mod_cast keyN
  field_simp
  linarith [keyQ]

theorem arrowSep_eq : arrowSep = [' ', '-', '-', '>', ' '] := rfl

theorem parseTS_tsCharsN_nil (n : ℕ) : parseTS (tsCharsN n) = some ((n : ℚ) / 1000, []) := by
  have := parseTS_tsCharsN n [] trivial
  simpa using this

theorem parseTSLine_srt (a b : ℚ) (ha : 0 ≤ a) (hb : 0 ≤ b) :
    parseTSLine (format_timestamp_srt a ++ arrowSep ++ format_timestamp_srt b)
      = some (quantizeMs a, quantizeMs b) := by
  rw [format_timestamp_srt_eq a ha, format_timestamp_srt_eq b hb]
  have hsp : (' ' : Char).isDigit = false := by decide
  have hnd1 : notDigitStart (arrowSep ++ tsCharsN (⌊b * 1000⌋).toNat) := by
    rw [arrowSep_eq]
    exact notDigitStart_cons _ _ hsp
  have h1 := parseTS_tsCharsN (⌊a * 1000⌋).toNat (arrowSep ++ tsCharsN (⌊b * 1000⌋).toNat) hnd1
  have h2 := parseTS_tsCharsN_nil (⌊b * 1000⌋).toNat
  have h3 := expectSeq_append arrowSep (tsCharsN (⌊b * 1000⌋).toNat)
  rw [List.append_assoc, parseTSLine]
  simp [h1, h2, h3, quantizeMs]

theorem isDigit_ne_nl {c : Char} (h : c.isDigit = true) : c ≠ '\n' := by
  intro he
  rw [he] at h
  exact absurd h (by decide)

theorem no_nl_natChars (n : ℕ) : '\n' ∉ natChars n :=
  fun hm => isDigit_ne_nl (natChars_isDigit n _ hm) rfl

theorem no_nl_padZ_natChars (w n : ℕ) : '\n' ∉ padZ w (natChars n) :=
  fun hm => isDigit_ne_nl (padZ_isDigit w _ (natChars_isDigit n) _ hm) rfl

theorem no_nl_tsLine (a b : ℚ) :
    '\n' ∉ format_timestamp_srt a ++ arrowSep ++ format_timestamp_srt b := by
  intro hm
  simp only [format_timestamp_srt, arrowSep_eq, List.mem_append, List.mem_cons,
    List.not_mem_nil, or_false] at hm
  casesm* _ ∨ _
  all_goals first
    | (exact absurd (by assumption) (no_nl_padZ_natChars _ _))
    | simp_all

/-- Line structure of an SRT file as written: index line, timing line, the
single text line, and a blank separator line, per segment. -/
def srtLines : ℕ → List TranscriptionSegment → List (List Char)
  | _, [] => []
  | i, s :: ss =>
    natChars i :: (format_timestamp_srt s.start ++ arrowSep ++ format_timestamp_srt s.«end»)
      :: s.text.data :: [] :: srtLines (i + 1) ss

theorem splitOnNL_srtGo : ∀ (ss : List TranscriptionSegment) (i : ℕ),
    (∀ s ∈ ss, '\n' ∉ s.text.data) →
    splitOnNL (srtGo i ss) = srtLines i ss ++ [[]] := by
  intro ss
  induction ss with
  | nil => intro i _; rfl
  | cons s ss ih =>
    intro i h
    have htext : '\n' ∉ s.text.data := h s (by simp)
    have hidx := no_nl_natChars i
    have hts := no_nl_tsLine s.start s.«end»
    have hshape : srtGo i (s :: ss)
        = natChars i ++ '\n' ::
            ((format_timestamp_srt s.start ++ arrowSep ++ format_timestamp_srt s.«end»)
              ++ '\n' :: (s.text.data ++ '\n' :: ('\n' :: srtGo (i + 1) ss))) := by
      simp [srtGo, srtBlock]
    rw [hshape, splitOnNL_line hidx, splitOnNL_line hts, splitOnNL_line htext]
    have hnl : splitOnNL ('\n' :: srtGo (i + 1) ss) = [] :: splitOnNL (srtGo (i + 1) ss) := by
      simp [splitOnNL]
    rw [hnl, ih (i + 1) (fun u hu => h u (by simp [hu]))]
    simp [srtLines]

theorem parseBlocks_srtLines : ∀ (ss : List TranscriptionSegment) (i : ℕ),
    (∀ s ∈ ss, 0 ≤ s.start ∧ 0 ≤ s.«end») →
    parseBlocks (srtLines i ss ++ [[]])
      = some (ss.map fun s => (quantizeMs s.start, quantizeMs s.«end», s.text.data)) := by
  intro ss
  induction ss with
  | nil => intro i _; rfl
  | cons s ss ih =>
    intro i h
    have hidx : (natChars i).isEmpty = false := by
      cases hx : natChars i with
      | nil => exact absurd hx (natChars_ne_nil i)
      | cons a l => rfl
    have hts := parseTSLine_srt s.start s.«end» (h s (by simp)).1 (h s (by simp)).2
    have hts' : parseTSLine (format_timestamp_srt s.start
        ++ (arrowSep ++ format_timestamp_srt s.«end»))
        = some (quantizeMs s.start, quantizeMs s.«end») := by
      rw [← List.append_assoc]
      exact hts
    have ihr := ih (i + 1) (fun u hu => h u (by simp [hu]))
    rw [srtLines]
    simp only [List.cons_append]
    simp [parseBlocks, hidx, hts, hts', ihr]

/-- C7 (amended). SRT round-trip: for every segment sequence whose texts
are newline-free and whose times are nonnegative, parsing the exported SRT
text recovers for each segment the triple
`(start, end, text)` with both times quantized to milliseconds
(`⌊1000·t⌋/1000`, i.e. exactly what the `HH:MM:SS,mmm` timestamp encodes,
within 1/1000 below the original); the timestamps are zero-padded and
hours are not capped.  The parser is modelled from the spec's format
description, as the repository ships no SRT reader. -/
theorem srt_round_trip (segs : List TranscriptionSegment)
    (h : ∀ s ∈ segs, 0 ≤ s.start ∧ 0 ≤ s.«end» ∧ '\n' ∉ s.text.data) :
    parseSRT (exportSrtChars segs)
      = some (segs.map fun s => (quantizeMs s.start, quantizeMs s.«end», s.text.data)) ∧
    ∀ q : ℚ, 0 ≤ q → q - 1 / 1000 < quantizeMs q ∧ quantizeMs q ≤ q := by
  constructor
  · rw [parseSRT, exportSrtChars, splitOnNL_srtGo segs 1 (fun s hs => (h s hs).2.2)]
    exact parseBlocks_srtLines segs 1 (fun s hs => ⟨(h s hs).1, (h s hs).2.1⟩)
  · intro q hq
    have h0 : (0 : ℤ) ≤ ⌊q * 1000⌋ := Int.floor_nonneg.2 (by positivity)
    have hcast : ((⌊q * 1000⌋.toNat : ℕ) : ℚ) = ((⌊q * 1000⌋ : ℤ) : ℚ) := by
      exact_mod_cast Int.toNat_of_nonneg h0
    have hlt := Int.lt_floor_add_one (q * 1000)
    have hle := Int.floor_le (q * 1000)
    constructor
    · rw [quantizeMs, hcast, lt_div_iff₀ (by norm_num : (0 : ℚ) < 1000)]
      linarith
    · rw [quantizeMs, hcast, div_le_iff₀ (by norm_num : (0 : ℚ) < 1000)]
      linarith

/-- C7 witness: one newline-free segment with integral times. -/
theorem srt_round_trip_witness :
    parseSRT (exportSrtChars [{ start := 0, «end» := 1, text := "hi" }])
      = some ([{ start := 0, «end» := 1, text := "hi" : TranscriptionSegment }].map
          fun s => (quantizeMs s.start, quantizeMs s.«end», s.text.data)) ∧
    ∀ q : ℚ, 0 ≤ q → q - 1 / 1000 < quantizeMs q ∧ quantizeMs q ≤ q :=
  srt_round_trip [{ start := 0, «end» := 1, text := "hi" }]
    (by
      intro s hs
      rw [List.mem_singleton] at hs
      subst hs
      exact ⟨le_refl 0, zero_le_one, by decide⟩)

/-- C7 counterexample: the claim quantifies over all segment sequences,
but a text containing a blank line breaks the block structure of the SRT
format, so re-parsing cannot recover the triples (the file parses as no
valid SRT at all): the claim as stated is false on the code. -/
theorem srt_round_trip_counterexample :
    parseSRT (exportSrtChars [{ start := 0, «end» := 1, text := "a\n\nb" }]) = none := by
  have h0 : format_timestamp_srt 0 = tsCharsN 0 := by
    rw [format_timestamp_srt_eq 0 le_rfl]
    norm_num
  have h1 : format_timestamp_srt 1 = tsCharsN 1000 := by
    rw [format_timestamp_srt_eq 1 zero_le_one]
    norm_num
    rfl
  rw [parseSRT, exportSrtChars]
  show parseBlocks (splitOnNL (srtGo 1 [{ start := 0, «end» := 1, text := "a\n\nb" }])) = none
  simp only [srtGo, srtBlock, h0, h1]
  decide
